import Mathlib

set_option maxHeartbeats 4000000

namespace GitWho

/-!
# Shallow embedding of `internal/tally/bucket.go` from git-who

Go `time.Time` values are modelled as absolute instants: seconds since the
Unix epoch, as `Int`.  The local timezone is modelled as a fixed zone with
zero offset, so civil (calendar) fields are obtained from the absolute
instant by the standard proleptic-Gregorian day-number conversions, which
is the calendar that Go's `time` package implements.  `Int` division `/`
is Euclidean division, which agrees with floor division for the positive
literal divisors used throughout.
-/

/-! ## Civil calendar: day numbers and dates -/

/-- Year shifted to the March-based calendar (Jan/Feb belong to the
previous March-year). -/
def dfcYear (y m : Int) : Int := y - (if m ≤ 2 then 1 else 0)

/-- Era of a (shifted) civil year. -/
def dfcEra (y m : Int) : Int := dfcYear y m / 400

/-- Year-of-era of a civil year. -/
def dfcYoe (y m : Int) : Int := dfcYear y m - dfcEra y m * 400

/-- Day-of-(March-based)-year of a civil month/day. -/
def dfcDoy (m d : Int) : Int :=
  (153 * (m + (if m > 2 then -3 else 9)) + 2) / 5 + d - 1

/-- Day-of-era of a civil date. -/
def dfcDoe (y m d : Int) : Int :=
  dfcYoe y m * 365 + dfcYoe y m / 4 - dfcYoe y m / 100 + dfcDoy m d

/-- Day number (days since 1970-01-01) of a proleptic-Gregorian civil date.
This is the date part of Go's `time.Date` constructor. -/
def daysFromCivil (y m d : Int) : Int :=
  dfcEra y m * 146097 + dfcDoe y m d - 719468

/-- Number of days in the first `n` years of a 400-year era (for `n ≤ 400`,
not counting the era's final Feb 29 which belongs to year 399's day 365). -/
def daysBeforeYoe (n : Int) : Int := 365 * n + n / 4 - n / 100

/-- Era index of a day number (era = 400 Gregorian years = 146097 days). -/
def eraOfDays (z : Int) : Int := (z + 719468) / 146097

/-- Day-of-era of a day number, in `[0, 146096]`. -/
def doeOfDays (z : Int) : Int := z + 719468 - eraOfDays z * 146097

/-- Year-of-era of a day-of-era, in `[0, 399]`. -/
def yoeOfDoe (doe : Int) : Int :=
  (doe - doe / 1460 + doe / 36524 - doe / 146096) / 365

/-- Year-of-era of a day number. -/
def yoeOfDays (z : Int) : Int := yoeOfDoe (doeOfDays z)

/-- Day-of-year (March-based year, `0` = Mar 1) of a day number. -/
def doyOfDays (z : Int) : Int := doeOfDays z - daysBeforeYoe (yoeOfDays z)

/-- March-based month index (`0` = Mar … `11` = Feb) of a day number. -/
def mpOfDays (z : Int) : Int := (5 * doyOfDays z + 2) / 153

/-- Civil day-of-month of a day number. -/
def cdayOfDays (z : Int) : Int := doyOfDays z - (153 * mpOfDays z + 2) / 5 + 1

/-- Civil month (1–12) of a day number. -/
def cmonthOfDays (z : Int) : Int :=
  mpOfDays z + (if mpOfDays z < 10 then 3 else -9)

/-- Civil year of a day number. -/
def cyearOfDays (z : Int) : Int :=
  yoeOfDays z + eraOfDays z * 400 + (if cmonthOfDays z ≤ 2 then 1 else 0)

/-- Civil date `(year, month, day)` of a day number; inverse of
`daysFromCivil`.  This is the date part of Go's `Time.Date()`. -/
def civilFromDays (z : Int) : Int × Int × Int :=
  (cyearOfDays z, cmonthOfDays z, cdayOfDays z)

/-- Leap year, proleptic Gregorian (as Go's `isLeap`). -/
def isLeap (y : Int) : Prop := y % 4 = 0 ∧ (y % 100 ≠ 0 ∨ y % 400 = 0)

instance (y : Int) : Decidable (isLeap y) := by unfold isLeap; infer_instance

/-- Days in a month, proleptic Gregorian. -/
def daysInMonth (y m : Int) : Int :=
  if m = 2 then (if isLeap y then 29 else 28)
  else if m = 4 ∨ m = 6 ∨ m = 9 ∨ m = 11 then 30 else 31

/-- A valid civil date. -/
def ValidDate (y m d : Int) : Prop :=
  1 ≤ m ∧ m ≤ 12 ∧ 1 ≤ d ∧ d ≤ daysInMonth y m

instance (y m d : Int) : Decidable (ValidDate y m d) := by
  unfold ValidDate; infer_instance

/-- Days from civil year 0 to civil (March-shifted) year `u`:
`365 u` plus the number of leap years. -/
def eDays (u : Int) : Int := 365 * u + u / 4 - u / 100 + u / 400

/-- The month part of `dfcDoy`. -/
def doy1 (m : Int) : Int := (153 * (m + (if m > 2 then -3 else 9)) + 2) / 5

/-! ## Absolute instants (Go `time.Time` in a fixed local zone) -/

/-- Day number of the instant `t` (seconds since epoch). -/
def daysOf (t : Int) : Int := t / 86400

/-- The three components of Go `t.Date()`. -/
def cyearOf (t : Int) : Int := cyearOfDays (daysOf t)

def cmonthOf (t : Int) : Int := cmonthOfDays (daysOf t)

def cdayOf (t : Int) : Int := cdayOfDays (daysOf t)

/-- Go `time.Date(y, m, d, 0, 0, 0, 0, time.Local)`: the month is
floor-normalized into the year, the day offsets linearly. -/
def goDate (y m d : Int) : Int :=
  86400 * daysFromCivil (y + (m - 1) / 12) ((m - 1) % 12 + 1) d

/-! ## Resolutions (`resolution` struct in bucket.go) -/

structure Resolution where
  apply : Int → Int
  label : Int → String
  next : Int → Int

/-- Decimal with at least 2 digits (Go format "01"/"02"). -/
def pad2 (n : Int) : String :=
  if 0 ≤ n ∧ n < 10 then "0" ++ toString n else toString n

/-- Decimal with at least 4 digits (Go format "2006" for years in
`[0, 9999]`). -/
def pad4 (n : Int) : String :=
  if 0 ≤ n ∧ n < 10 then "000" ++ toString n
  else if 0 ≤ n ∧ n < 100 then "00" ++ toString n
  else if 0 ≤ n ∧ n < 1000 then "0" ++ toString n
  else toString n

/-- Go format "Jan": abbreviated month name. -/
def monthName (m : Int) : String :=
  if m = 1 then "Jan" else if m = 2 then "Feb" else if m = 3 then "Mar"
  else if m = 4 then "Apr" else if m = 5 then "May" else if m = 6 then "Jun"
  else if m = 7 then "Jul" else if m = 8 then "Aug" else if m = 9 then "Sep"
  else if m = 10 then "Oct" else if m = 11 then "Nov" else "Dec"

/-- Yearly buckets: truncate to Jan 1 00:00, label "2006", advance one year. -/
def yearlyResolution : Resolution where
  apply t := goDate (cyearOf t) 1 1
  next t := goDate (cyearOf (goDate (cyearOf t) 1 1) + 1) 1 1
  label t := pad4 (cyearOf (goDate (cyearOf t) 1 1))

/-- Monthly buckets: truncate to day 1 00:00, label "Jan 2006", advance one
month. -/
def monthlyResolution : Resolution where
  apply t := goDate (cyearOf t) (cmonthOf t) 1
  next t :=
    goDate (cyearOf (goDate (cyearOf t) (cmonthOf t) 1))
      (cmonthOf (goDate (cyearOf t) (cmonthOf t) 1) + 1) 1
  label t :=
    monthName (cmonthOf (goDate (cyearOf t) (cmonthOf t) 1)) ++ " " ++
      pad4 (cyearOf (goDate (cyearOf t) (cmonthOf t) 1))

/-- Daily buckets: truncate to local midnight, label "2006-01-02", advance
one day. -/
def dailyResolution : Resolution where
  apply t := goDate (cyearOf t) (cmonthOf t) (cdayOf t)
  next t :=
    goDate (cyearOf (goDate (cyearOf t) (cmonthOf t) (cdayOf t)))
      (cmonthOf (goDate (cyearOf t) (cmonthOf t) (cdayOf t)))
      (cdayOf (goDate (cyearOf t) (cmonthOf t) (cdayOf t)) + 1)
  label t :=
    pad4 (cyearOf (goDate (cyearOf t) (cmonthOf t) (cdayOf t))) ++ "-" ++
      pad2 (cmonthOf (goDate (cyearOf t) (cmonthOf t) (cdayOf t))) ++ "-" ++
      pad2 (cdayOf (goDate (cyearOf t) (cmonthOf t) (cdayOf t)))

/-! ## Bucket-start enumeration of a resolution -/

/-- A resolution whose bucket starts are enumerated by a strictly monotone
sequence `s` of instants, with `idx` locating the bucket of any instant. -/
structure ResEnum (r : Resolution) (s : Int → Int) (idx : Int → Int) : Prop where
  apply_eq : ∀ t, r.apply t = s (idx t)
  next_eq : ∀ t, r.next t = s (idx t + 1)
  idx_s : ∀ k, idx (s k) = k
  s_mono : ∀ k k', k < k' → s k < s k'
  idx_mem : ∀ t, s (idx t) ≤ t ∧ t < s (idx t + 1)

/-- Bucket starts of the daily resolution: midnights. -/
def dayStart (k : Int) : Int := 86400 * k

/-- Bucket starts of the monthly resolution, by month index
`k = 12 * year + (month - 1)`. -/
def monthStart (k : Int) : Int := 86400 * daysFromCivil (k / 12) (k % 12 + 1) 1

/-- Bucket starts of the yearly resolution, by year. -/
def yearStart (k : Int) : Int := 86400 * daysFromCivil k 1 1

/-- Month index of an instant. -/
def monthIdx (t : Int) : Int := 12 * cyearOf t + (cmonthOf t - 1)

namespace SMap

variable {κ : Type} [LinearOrder κ] {α : Type}

def lookup (k : κ) : List (κ × α) → Option α
  | [] => none
  | (k₂, v) :: rest => if k = k₂ then some v else lookup k rest

def insert (k : κ) (v : α) : List (κ × α) → List (κ × α)
  | [] => [(k, v)]
  | (k₂, v₂) :: rest =>
    if k < k₂ then (k, v) :: (k₂, v₂) :: rest
    else if k = k₂ then (k, v) :: rest
    else (k₂, v₂) :: insert k v rest

/-- Keys strictly increasing. -/
def Sorted : List (κ × α) → Prop := List.Pairwise (fun p q => p.1 < q.1)

/-- Fold the entries of `l` into `m`, combining values on key collision:
the Go pattern "for k, v := range l { if ex, ok := m[k]; ok { m[k] =
f(ex, v) } else { m[k] = v } }". -/
def mergeFold (f : α → α → α) (m l : List (κ × α)) : List (κ × α) :=
  l.foldl (fun acc kv =>
    match lookup kv.1 acc with
    | some ex => insert kv.1 (f ex kv.2) acc
    | none => insert kv.1 kv.2 acc) m

end SMap

/-! ## Data model

`git.Commit` (internal/git) and the `Tally` family (tally.go) are not part
of the bucketing source file; they are modelled from the spec where noted.
-/

/-- Modelled from the spec: `git.FileDiff` — a per-file diff carrying the
path and the added/removed line counts (internal/git is outside the
tallying core). -/
structure FileDiff where
  Path : String
  LinesAdded : Int
  LinesRemoved : Int
deriving DecidableEq

/-- Modelled from the spec: `git.Commit` — author identity, commit
timestamp and the ordered per-file diffs. -/
structure Commit where
  AuthorName : String
  AuthorEmail : String
  Date : Int
  FileDiffs : List FileDiff
deriving DecidableEq

/-- Modelled from the spec: `TallyMode` from tally.go — the metric enum
`{CommitMode, FilesMode, LinesMode, LastModifiedMode}`. -/
inductive TallyMode where
  | CommitMode
  | FilesMode
  | LinesMode
  | LastModifiedMode
deriving DecidableEq

/-- Modelled from the spec: `TallyOpts` from tally.go — the metric mode and
the author-key function grouping commits. -/
structure TallyOpts where
  Mode : TallyMode
  Key : Commit → String

/-- Modelled from the spec: `Tally` from tally.go — per-author running
state within a bucket: display name, email, number of commits folded in,
line counts, and the set of distinct file paths touched (a Go
`map[string]bool`, modelled canonically sorted). -/
structure Tally where
  name : String
  email : String
  numTallied : Int
  added : Int
  removed : Int
  fileset : List (String × Bool)
deriving DecidableEq

instance : Inhabited Tally where
  default := ⟨"", "", 0, 0, 0, []⟩

/-- Modelled from the spec: `Tally.Combine` from tally.go — tallies for the
same key are summed, never replaced: counts add, filesets union, and the
identity fields keep the receiver's values, falling back to the argument's
when the receiver's are unset (the zero-valued running tally). -/
def Tally.Combine (a b : Tally) : Tally where
  name := if a.name = "" then b.name else a.name
  email := if a.email = "" then b.email else a.email
  numTallied := a.numTallied + b.numTallied
  added := a.added + b.added
  removed := a.removed + b.removed
  fileset := SMap.mergeFold (fun _ v => v) a.fileset b.fileset

/-- Modelled from the spec: `FinalTally` from tally.go — the immutable
snapshot of a tally used for display and ranking. -/
structure FinalTally where
  AuthorName : String
  AuthorEmail : String
  Commits : Int
  LinesAdded : Int
  LinesRemoved : Int
  FileCount : Int
deriving DecidableEq

instance : Inhabited FinalTally where
  default := ⟨"", "", 0, 0, 0, 0⟩

/-- `TimeBucket` (bucket.go): label, truncated start time, cached winning
and total tallies, and the per-author tally map. -/
structure TimeBucket where
  Name : String
  Time : Int
  Tally : FinalTally
  TotalTally : FinalTally
  tallies : List (String × GitWho.Tally)
deriving DecidableEq

/-- `newBucket` (bucket.go): only the name, time and empty tally map are
set; the cached tallies are zero values. -/
def newBucket (name : String) (t : Int) : TimeBucket where
  Name := name
  Time := t
  Tally := default
  TotalTally := default
  tallies := []

/-- `TimeBucket.Combine` (bucket.go).  The Go method panics when the names
or times differ (modelled as `none`); otherwise it folds the argument's
tally map into the receiver's, combining tallies that share an author key.
-/
def TimeBucket.Combine (a b : TimeBucket) : Option TimeBucket :=
  if a.Name ≠ b.Name then none
  else if a.Time ≠ b.Time then none
  else some { a with tallies := SMap.mergeFold Tally.Combine a.tallies b.tallies }

/-- `TimeSeries` (bucket.go). -/
abbrev TimeSeries := List TimeBucket

/-- `TimeSeries.Combine` (bucket.go): key the first series by bucket time
(`Time.Unix()`, here the instant itself), fold the second series in,
combining buckets that share a time (a panic inside `TimeBucket.Combine`
aborts, modelled as `none`), then emit the buckets in ascending key order.
-/
def TimeSeries.Combine (a b : TimeSeries) : Option TimeSeries := do
  let m0 : List (Int × TimeBucket) := a.foldl (fun m bk => SMap.insert bk.Time bk m) []
  let m1 ← b.foldlM (fun m bk =>
    match SMap.lookup bk.Time m with
    | some existing =>
      match existing.Combine bk with
      | some merged => some (SMap.insert bk.Time merged m)
      | none => none
    | none => some (SMap.insert bk.Time bk m)) m0
  some (m1.map Prod.snd)

/-! ## Resolution selection and bucket construction -/

/-- `calcResolution` (bucket.go).  Durations are in seconds; Go computes
`end.Sub(start)` in nanoseconds (saturating beyond ±292 years), which picks
the same branch for every pair of instants. -/
def calcResolution (start endT : Int) : Resolution :=
  if endT - start > 86400 * 365 * 5 then yearlyResolution
  else if endT - start > 86400 * 60 then monthlyResolution
  else dailyResolution

/-- The bucket-construction loop of `TallyCommitsByDate` (bucket.go lines
224–229), with structural fuel so that it stays executable; the fuel is
sufficient because every resolution advances time by at least one second
(see `buildBuckets_eq`). -/
def buildBucketsFuel (res : Resolution) (endT : Int) : Nat → Int → List TimeBucket
  | 0, _ => []
  | fuel + 1, t =>
    if endT > t then
      newBucket (res.label t) (res.apply t) :: buildBucketsFuel res endT fuel (res.next t)
    else []

def buildBuckets (res : Resolution) (endT t : Int) : List TimeBucket :=
  buildBucketsFuel res endT ((endT - t).toNat + 1) t

/-! ## The tallying loop and `TallyCommitsByDate` -/

/-- Error wrapping of the deferred handler in `TallyCommitsByDate`. -/
def tallyWrap (e : String) : String :=
  "error while tallying commits by date: " ++ e

/-- The forward cursor advance (bucket.go lines 244–250): starting at
index `j`, scan for the bucket whose time equals `bt`; running off the end
of the bucket list is the Go index-out-of-range panic, modelled as `none`.
Fuel `buckets.length + 1` always suffices (the index grows each step). -/
def advanceFuel (buckets : List TimeBucket) (bt : Int) : Nat → Nat → Option Nat
  | 0, _ => none
  | fuel + 1, j =>
    match buckets[j]? with
    | none => none
    | some b => if bt = b.Time then some j else advanceFuel buckets bt fuel (j + 1)

def advance (buckets : List TimeBucket) (bt : Int) (j : Nat) : Option Nat :=
  advanceFuel buckets bt (buckets.length + 1) j

/-- Zero value of `Tally` completed with the commit's identity (bucket.go
lines 254–259). -/
def freshTally (c : Commit) : Tally where
  name := c.AuthorName
  email := c.AuthorEmail
  numTallied := 0
  added := 0
  removed := 0
  fileset := []

/-- Folding one commit into a tally (bucket.go lines 261–267). -/
def updateTally (c : Commit) (t : Tally) : Tally :=
  c.FileDiffs.foldl
    (fun t d =>
      { t with
        added := t.added + d.LinesAdded
        removed := t.removed + d.LinesRemoved
        fileset := SMap.insert d.Path true t.fileset })
    { t with numTallied := t.numTallied + 1 }

/-- Folding one commit into a bucket's tally map (bucket.go lines
252–269). -/
def tallyCommitInto (opts : TallyOpts) (c : Commit)
    (tallies : List (String × Tally)) : List (String × Tally) :=
  let key := opts.Key c
  let t0 := match SMap.lookup key tallies with
    | some t => t
    | none => freshTally c
  SMap.insert key (updateTally c t0) tallies

/-- The main tally loop (bucket.go lines 231–271).  `none` models the
index-out-of-range panic on out-of-range commits. -/
def tallyLoop (opts : TallyOpts) (res : Resolution) :
    List TimeBucket → Nat → List (Except String Commit) →
      Option (List TimeBucket × Option String)
  | buckets, _, [] => some (buckets, none)
  | buckets, _, .error e :: _ =>
    some (buckets, some (tallyWrap ("error iterating commits: " ++ e)))
  | buckets, i, .ok c :: rest =>
    match buckets[i]? with
    | none => none
    | some bucket =>
      let bt := res.apply c.Date
      match (if bt > bucket.Time then advance buckets bt (i + 1) else some i) with
      | none => none
      | some j =>
        match buckets[j]? with
        | none => none
        | some bucketJ =>
          tallyLoop opts res
            (buckets.set j { bucketJ with tallies := tallyCommitInto opts c bucketJ.tallies })
            j rest

/-- `TallyCommitsByDate` (bucket.go lines 192–274).  The commit stream is a
list of pulls, each yielding a commit or an error; the overall `none`
models a Go panic (index out of range on out-of-order or out-of-range
input), and the `Option String` component is the returned `error`. -/
def TallyCommitsByDate (commits : List (Except String Commit)) (opts : TallyOpts)
    (endT : Int) : Option (List TimeBucket × Option String) :=
  if opts.Mode = TallyMode.LastModifiedMode then
    some ([], some (tallyWrap "Last modified mode not implemented"))
  else
    match commits with
    | [] => some ([], none)
    | .error e :: _ => some ([], some (tallyWrap e))
    | .ok firstCommit :: rest =>
      let res := calcResolution firstCommit.Date endT
      tallyLoop opts res (buildBuckets res endT (res.apply firstCommit.Date)) 0 rest

/-! ## Store-passing model of map aliasing (for the frame-effect claim)

Go structs copy by value but maps are references.  To observe the aliasing
of `TimeBucket.Combine` we give a second, store-passing rendering of the
same method in which a bucket holds an index into a store of tally maps and
the merge writes through the receiver's reference. -/

structure TimeBucketRef where
  Name : String
  Time : Int
  Tally : FinalTally
  TotalTally : FinalTally
  talliesRef : Nat
deriving DecidableEq

/-- `TimeBucket.Combine` with the map indirection explicit: `merged := a`
copies the struct (sharing `a`'s map reference) and the loop writes the
merged entries through that shared reference. -/
def TimeBucketRef.CombineH (store : List (List (String × GitWho.Tally)))
    (a b : TimeBucketRef) :
    Option (List (List (String × GitWho.Tally)) × TimeBucketRef) :=
  if a.Name ≠ b.Name then none
  else if a.Time ≠ b.Time then none
  else
    match store[a.talliesRef]?, store[b.talliesRef]? with
    | some ma, some mb =>
      some (store.set a.talliesRef (SMap.mergeFold Tally.Combine ma mb), a)
    | _, _ => none

/-! ## Concrete sample data -/

def sampleCommitA : Commit := ⟨"Alice", "alice@example.com", goDate 2024 1 5, [⟨"f.txt", 1, 2⟩]⟩

def sampleCommitB : Commit := ⟨"Alice", "alice@example.com", goDate 2024 1 20, [⟨"g.txt", 3, 4⟩]⟩

def sampleCommitC : Commit := ⟨"Bob", "bob@example.com", goDate 2024 2 2, [⟨"f.txt", 5, 6⟩]⟩

def sampleOpts : TallyOpts := ⟨TallyMode.CommitMode, fun c => c.AuthorEmail⟩

def sampleFinalA : FinalTally := ⟨"Alice", "alice@example.com", 1, 0, 0, 1⟩

def sampleFinalB : FinalTally := ⟨"Bob", "bob@example.com", 2, 0, 0, 1⟩

/-- A bucket as `Rank` leaves it: with a cached winning tally. -/
def rankedBucketA : TimeBucket :=
  { Name := "2024", Time := 0, Tally := sampleFinalA, TotalTally := default, tallies := [] }

def rankedBucketB : TimeBucket :=
  { Name := "2024", Time := 0, Tally := sampleFinalB, TotalTally := default, tallies := [] }

def sampleTallyA : Tally := ⟨"Alice", "alice@example.com", 1, 1, 2, [("f.txt", true)]⟩

def sampleTallyB : Tally := ⟨"Bob", "bob@example.com", 1, 5, 6, [("g.txt", true)]⟩

def sampleStore : List (List (String × Tally)) :=
  [[("alice@example.com", sampleTallyA)], [("bob@example.com", sampleTallyB)]]

def sampleRefA : TimeBucketRef := ⟨"2024", 0, default, default, 0⟩

def sampleRefB : TimeBucketRef := ⟨"2024", 0, default, default, 1⟩

/-- The error attached to the unconsumed remainder of the stream. -/
def streamTailErr : List (Except String Commit) → Option String
  | [] => none
  | .error e :: _ => some (tallyWrap ("error iterating commits: " ++ e))
  | .ok _ :: _ => none

/-- Semantic form of the tally loop result: each bucket accumulates, in
stream order, exactly the commits whose truncated date is its time. -/
def bucketFold (opts : TallyOpts) (res : Resolution) (cs : List Commit)
    (bk : TimeBucket) : TimeBucket :=
  let filtered := cs.filter (fun c => res.apply c.Date = bk.Time)
  let newTallies := List.foldl (fun m c => tallyCommitInto opts c m) bk.tallies filtered
  { bk with tallies := newTallies }

def tallyAllRes (opts : TallyOpts) (res : Resolution) (cs : List Commit)
    (buckets : List TimeBucket) : List TimeBucket :=
  buckets.map (bucketFold opts res cs)

/-- Well-formed file set: canonically sorted, all values `true` (Go only
ever stores `true` in the `map[string]bool`). -/
def FilesetWF (fs : List (String × Bool)) : Prop :=
  SMap.Sorted fs ∧ ∀ p ∈ fs, p.2 = true

/-- Well-formed tally under author key `k`: identity fields are the values
the key functions `N`, `E` prescribe for `k`, and the file set is
well-formed. -/
def TallyWF (N E : String → String) (k : String) (t : Tally) : Prop :=
  t.name = N k ∧ t.email = E k ∧ FilesetWF t.fileset

/-- Well-formed per-author tally map. -/
def TalliesWF (N E : String → String) (m : List (String × Tally)) : Prop :=
  SMap.Sorted m ∧ ∀ kv ∈ m, TallyWF N E kv.1 kv.2

/-- Well-formed bucket: the label is determined by the time through `L`,
the cached display tallies are still zero values (as `newBucket` leaves
them), and the tally map is well-formed. -/
def BucketWF (L : Int → String) (N E : String → String) (b : TimeBucket) : Prop :=
  b.Name = L b.Time ∧ b.Tally = default ∧ b.TotalTally = default ∧
    TalliesWF N E b.tallies

/-- Well-formed series: pairwise-distinct bucket times, all buckets
well-formed. -/
def SeriesWF (L : Int → String) (N E : String → String) (s : TimeSeries) : Prop :=
  List.Pairwise (fun x y => x.Time ≠ y.Time) s ∧ ∀ b ∈ s, BucketWF L N E b

/-! ## C7: the series-level merge -/

/-- The total combine on buckets agreeing in name and time: what
`TimeBucket.Combine` returns when it does not panic. -/
def combineBucketsTotal (x y : TimeBucket) : TimeBucket :=
  { x with tallies := SMap.mergeFold Tally.Combine x.tallies y.tallies }

/-- The first loop of `TimeSeries.Combine`: index series `a` by bucket
time. -/
def seriesMap (a : TimeSeries) : List (Int × TimeBucket) :=
  a.foldl (fun m bk => SMap.insert bk.Time bk m) []

/-- One step of the second loop of `TimeSeries.Combine`: insert-or-combine
bucket `bk` into the map, propagating a `TimeBucket.Combine` panic. -/
def seriesStep (m : List (Int × TimeBucket)) (bk : TimeBucket) :
    Option (List (Int × TimeBucket)) :=
  match SMap.lookup bk.Time m with
  | some existing =>
    match existing.Combine bk with
    | some merged => some (SMap.insert bk.Time merged m)
    | none => none
  | none => some (SMap.insert bk.Time bk m)

/-- Well-formed time-keyed bucket map: sorted, every bucket stored under
its own time, every bucket well-formed. -/
def MapWF (L : Int → String) (N E : String → String)
    (m : List (Int × TimeBucket)) : Prop :=
  SMap.Sorted m ∧ ∀ kv ∈ m, kv.2.Time = kv.1 ∧ BucketWF L N E kv.2

def wTally1 : Tally := ⟨"Alice", "a@x", 1, 2, 3, [("f.txt", true)]⟩

def wTally2 : Tally := ⟨"Alice", "a@x", 4, 5, 6, [("g.txt", true)]⟩

def wBucketA : TimeBucket := ⟨"B", 0, default, default, [("a", wTally1)]⟩

def wBucketB : TimeBucket := ⟨"B", 0, default, default, [("a", wTally2)]⟩

def wL : Int → String := fun _ => "B"

def wN : String → String := fun _ => "Alice"

def wE : String → String := fun _ => "a@x"

/-- The fileset effect of folding one commit's diffs. -/
def insertPaths (ds : List FileDiff) (fs : List (String × Bool)) :
    List (String × Bool) :=
  ds.foldl (fun fs d => SMap.insert d.Path true fs) fs

def sumAdded (c : Commit) : Int := (c.FileDiffs.map (fun d => d.LinesAdded)).sum

def sumRemoved (c : Commit) : Int := (c.FileDiffs.map (fun d => d.LinesRemoved)).sum

/-- An interleaving of two lists preserving each one's internal order: the
shape of a two-way partition of a commit stream. -/
inductive Interleave {α : Type} : List α → List α → List α → Prop where
  | nil : Interleave [] [] []
  | left {c : α} {us vs cs : List α} :
      Interleave us vs cs → Interleave (c :: us) vs (c :: cs)
  | right {c : α} {us vs cs : List α} :
      Interleave us vs cs → Interleave us (c :: vs) (c :: cs)

def c2CommitB : Commit :=
  ⟨"Bob", "bob@example.com", goDate 2024 1 6, [⟨"g.txt", 3, 4⟩]⟩

def wKeyName : String → String :=
  fun k => if k = "alice@example.com" then "Alice" else "Bob"

/-! ## Theorems -/

/-- Correctness of the year-of-era extraction formula: within an era, the
formula finds the year containing the given day-of-era, with the Feb 29
day-of-year 365 occurring only in leap years. -/
theorem yoeOfDoe_correct (doe : Int) (h0 : 0 ≤ doe) (h1 : doe ≤ 146096) :
    0 ≤ yoeOfDoe doe ∧ yoeOfDoe doe ≤ 399 ∧
      daysBeforeYoe (yoeOfDoe doe) ≤ doe ∧
      (doe - daysBeforeYoe (yoeOfDoe doe) ≤ 364 ∨
        (doe - daysBeforeYoe (yoeOfDoe doe) = 365 ∧ (yoeOfDoe doe + 1) % 4 = 0 ∧
          ((yoeOfDoe doe + 1) % 100 ≠ 0 ∨ yoeOfDoe doe = 399))) := by
  unfold yoeOfDoe daysBeforeYoe
  set q : Int := doe / 1460 with hq
  have hqb0 : 0 ≤ q := by omega
  have hqb1 : q ≤ 100 := by omega
  interval_cases q <;>
    first
      | omega
      | (rcases (by omega : doe / 36524 = 0 ∨ doe / 36524 = 1 ∨ doe / 36524 = 2 ∨
            doe / 36524 = 3 ∨ doe / 36524 = 4) with h | h | h | h | h <;>
          rcases (by omega : doe / 146096 = 0 ∨ doe / 146096 = 1) with h2 | h2 <;> omega)

/-- Month/day extraction from a day-of-year is correct and reconstructs. -/
theorem mp_correct (doy : Int) (h0 : 0 ≤ doy) (h1 : doy ≤ 365) :
    0 ≤ (5 * doy + 2) / 153 ∧ (5 * doy + 2) / 153 ≤ 11 ∧
      (153 * ((5 * doy + 2) / 153) + 2) / 5 ≤ doy ∧
      doy - (153 * ((5 * doy + 2) / 153) + 2) / 5 + 1 ≥ 1 := by
  omega

theorem doeOfDays_bounds (z : Int) : 0 ≤ doeOfDays z ∧ doeOfDays z ≤ 146096 := by
  unfold doeOfDays eraOfDays; omega

/-- The civil date extracted from any day number is a valid date. -/
theorem civil_valid (z : Int) : ValidDate (cyearOfDays z) (cmonthOfDays z) (cdayOfDays z) := by
  have hdoe := doeOfDays_bounds z
  obtain ⟨h0, h1, h2, h3⟩ := yoeOfDoe_correct (doeOfDays z) hdoe.1 hdoe.2
  unfold ValidDate daysInMonth isLeap cyearOfDays cmonthOfDays cdayOfDays mpOfDays doyOfDays yoeOfDays
  set D : Int := doeOfDays z with hD
  set Y : Int := yoeOfDoe D with hY
  set B : Int := daysBeforeYoe Y with hB
  have hBdef : B = 365 * Y + Y / 4 - Y / 100 := by rw [hB]; unfold daysBeforeYoe; rfl
  set doy : Int := D - B with hdoy
  have hdoyb : 0 ≤ doy ∧ doy ≤ 365 := by omega
  set mp : Int := (5 * doy + 2) / 153 with hmp
  have hmpb0 : 0 ≤ mp := by omega
  have hmpb1 : mp ≤ 11 := by omega
  interval_cases mp <;> split_ifs <;> omega

/-- Reconstruction: `daysFromCivil` applied to the month/day decomposition of
a day-of-year recovers the era/year/doy decomposition. -/
theorem dfc_recon (eraT Y mp d doy : Int)
    (hY0 : 0 ≤ Y) (hY1 : Y ≤ 399)
    (hmp : 153 * mp ≤ 5 * doy + 2 ∧ 5 * doy + 2 < 153 * mp + 153)
    (hmp0 : 0 ≤ mp) (hmp1 : mp ≤ 11)
    (hd : d = doy - (153 * mp + 2) / 5 + 1)
    (hdoy0 : 0 ≤ doy) (hdoy1 : doy ≤ 365) :
    daysFromCivil (Y + eraT * 400 + (if mp + (if mp < 10 then 3 else -9) ≤ 2 then 1 else 0))
        (mp + (if mp < 10 then 3 else -9)) d
      = eraT * 146097 + daysBeforeYoe Y + doy - 719468 := by
  simp only [daysFromCivil, dfcDoe, dfcYoe, dfcEra, dfcYear, dfcDoy, daysBeforeYoe]
  interval_cases mp <;> split_ifs <;> omega

/-- Round trip: `daysFromCivil` inverts `civilFromDays` on every day number. -/
theorem daysFromCivil_civilFromDays (z : Int) :
    daysFromCivil (cyearOfDays z) (cmonthOfDays z) (cdayOfDays z) = z := by
  have hdoe := doeOfDays_bounds z
  obtain ⟨h0, h1, h2, h3⟩ := yoeOfDoe_correct (doeOfDays z) hdoe.1 hdoe.2
  have hrec := dfc_recon (eraOfDays z) (yoeOfDays z) (mpOfDays z) (cdayOfDays z) (doyOfDays z)
    h0 h1 (by unfold mpOfDays; omega) (by unfold mpOfDays doyOfDays yoeOfDays; omega)
    (by unfold mpOfDays doyOfDays yoeOfDays; omega)
    (by unfold cdayOfDays; ring) (by unfold doyOfDays yoeOfDays; omega)
    (by unfold doyOfDays yoeOfDays; omega)
  simp only [cyearOfDays, cmonthOfDays] at hrec ⊢
  rw [hrec]
  unfold doyOfDays yoeOfDays doeOfDays
  ring

/-- The era/year-of-era decomposition used by `daysFromCivil` computes
`eDays` of the shifted year. -/
theorem dfc_eDays (y m : Int) :
    dfcEra y m * 146097 + dfcYoe y m * 365 + dfcYoe y m / 4 - dfcYoe y m / 100
      = eDays (dfcYear y m) := by
  simp only [dfcEra, dfcYoe, eDays]
  omega

/-- Normal form of `daysFromCivil`. -/
theorem dfc_normal (y m d : Int) :
    daysFromCivil y m d = eDays (dfcYear y m) + dfcDoy m d - 719468 := by
  have h := dfc_eDays y m
  simp only [daysFromCivil, dfcDoe]
  omega

theorem eDays_mono {u u' : Int} (h : u ≤ u') : eDays u ≤ eDays u' := by
  simp only [eDays]
  omega

theorem eDays_succ (u : Int) :
    eDays u + 365 ≤ eDays (u + 1) ∧ eDays (u + 1) ≤ eDays u + 366 := by
  simp only [eDays]
  omega

/-- First-of-January normal form. -/
theorem dfc_jan1 (y : Int) :
    daysFromCivil y 1 1 = eDays (y - 1) + 306 - 719468 := by
  rw [dfc_normal]
  simp only [dfcYear, dfcDoy]
  norm_num

/-- Any valid date of year `y` lies in `[Jan 1 of y, Jan 1 of y+1)`. -/
theorem dfc_year_bounds (y m d : Int) (h : ValidDate y m d) :
    daysFromCivil y 1 1 ≤ daysFromCivil y m d ∧
      daysFromCivil y m d < daysFromCivil (y + 1) 1 1 := by
  obtain ⟨hm1, hm2, hd1, hd2⟩ := h
  rw [dfc_jan1, dfc_jan1, dfc_normal]
  simp only [dfcYear, dfcDoy, daysInMonth, isLeap] at *
  interval_cases m <;> split_ifs at * <;> simp only [eDays] at * <;> omega

theorem dfcDoy_eq (m d : Int) : dfcDoy m d = doy1 m + d - 1 := by
  simp only [dfcDoy, doy1]

theorem doy1_mono {m m' : Int} (h3 : 3 ≤ m) (h : m ≤ m') : doy1 m ≤ doy1 m' := by
  simp only [doy1]
  split_ifs <;> omega

/-- A month plus its length reaches the next month's offset (months 3–11 of
the March-based year). -/
theorem doy1_step (y m : Int) (h3 : 3 ≤ m) (h11 : m ≤ 11) :
    doy1 m + daysInMonth y m ≤ doy1 (m + 1) := by
  simp only [doy1, daysInMonth, isLeap]
  interval_cases m <;> split_ifs <;> omega

/-- Length of the Jan–Feb block in days, by leapness. -/
theorem eDays_gap (y : Int) :
    eDays y - eDays (y - 1) = if isLeap y then 366 else 365 := by
  simp only [eDays, isLeap]
  split_ifs <;> omega

/-- `daysFromCivil` is strictly monotone in lexicographic date order. -/
theorem dfc_lt_dfc (y m d y' m' d' : Int) (h : ValidDate y m d)
    (h' : ValidDate y' m' d')
    (hlt : y < y' ∨ (y = y' ∧ (m < m' ∨ (m = m' ∧ d < d')))) :
    daysFromCivil y m d < daysFromCivil y' m' d' := by
  rcases hlt with hy | ⟨rfl, hrest⟩
  · have h1 := (dfc_year_bounds y m d h).2
    have h2 := (dfc_year_bounds y' m' d' h').1
    have h3 : daysFromCivil (y + 1) 1 1 ≤ daysFromCivil y' 1 1 := by
      rw [dfc_jan1, dfc_jan1]
      have := eDays_mono (by omega : y + 1 - 1 ≤ y' - 1)
      omega
    omega
  · obtain ⟨hm1, hm2, hd1, hd2⟩ := h
    obtain ⟨hm1', hm2', hd1', hd2'⟩ := h'
    rw [dfc_normal, dfc_normal, dfcDoy_eq, dfcDoy_eq]
    rcases hrest with hm | ⟨rfl, hd⟩
    · rcases (by omega : m' ≤ 2 ∨ (3 ≤ m ∧ 3 ≤ m') ∨ (m ≤ 2 ∧ 3 ≤ m')) with
        hc | ⟨hc1, hc2⟩ | ⟨hc1, hc2⟩
      · -- m = 1, m' = 2: same shifted year
        have hm1eq : m = 1 := by omega
        have hm2eq : m' = 2 := by omega
        subst hm1eq; subst hm2eq
        simp only [dfcYear, doy1, daysInMonth] at *
        split_ifs at * <;> omega
      · -- both at least March: same shifted year
        have hstep := doy1_step y m hc1 (by omega)
        have hmono := doy1_mono (by omega : (3:Int) ≤ m + 1) (by omega : m + 1 ≤ m')
        simp only [dfcYear] at *
        split_ifs at * <;> (try simp only [sub_zero] at *) <;> omega
      · -- m ∈ {1,2}, m' ≥ 3: year shift between them
        have hgap := eDays_gap y
        have hpos : 0 ≤ doy1 m' := by simp only [doy1]; split_ifs <;> omega
        have hup : doy1 m + d - 1 ≤ 364 + (if isLeap y then 1 else 0) := by
          simp only [doy1, daysInMonth, isLeap] at *
          split_ifs at * <;> omega
        simp only [dfcYear] at *
        split_ifs at * <;> (try simp only [sub_zero] at *) <;> omega
    · -- same month, increasing day
      simp only [dfcYear]
      split_ifs <;> omega

/-- `daysFromCivil` is injective on valid dates. -/
theorem dfc_inj {y m d y' m' d' : Int} (h : ValidDate y m d) (h' : ValidDate y' m' d')
    (heq : daysFromCivil y m d = daysFromCivil y' m' d') :
    y = y' ∧ m = m' ∧ d = d' := by
  rcases lt_trichotomy y y' with hy | rfl | hy
  · exact absurd heq (ne_of_lt (dfc_lt_dfc y m d y' m' d' h h' (Or.inl hy)))
  · rcases lt_trichotomy m m' with hm | rfl | hm
    · exact absurd heq
        (ne_of_lt (dfc_lt_dfc y m d y m' d' h h' (Or.inr ⟨rfl, Or.inl hm⟩)))
    · rcases lt_trichotomy d d' with hd | rfl | hd
      · exact absurd heq
          (ne_of_lt (dfc_lt_dfc y m d y m d' h h' (Or.inr ⟨rfl, Or.inr ⟨rfl, hd⟩⟩)))
      · exact ⟨rfl, rfl, rfl⟩
      · exact absurd heq.symm
          (ne_of_lt (dfc_lt_dfc y m d' y m d h' h (Or.inr ⟨rfl, Or.inr ⟨rfl, hd⟩⟩)))
    · exact absurd heq.symm
        (ne_of_lt (dfc_lt_dfc y m' d' y m d h' h (Or.inr ⟨rfl, Or.inl hm⟩)))
  · exact absurd heq.symm (ne_of_lt (dfc_lt_dfc y' m' d' y m d h' h (Or.inl hy)))

/-- Round trip on valid dates: `civilFromDays` inverts `daysFromCivil`. -/
theorem civil_dfc (y m d : Int) (h : ValidDate y m d) :
    cyearOfDays (daysFromCivil y m d) = y ∧ cmonthOfDays (daysFromCivil y m d) = m ∧
      cdayOfDays (daysFromCivil y m d) = d := by
  exact dfc_inj (civil_valid (daysFromCivil y m d)) h
    (daysFromCivil_civilFromDays (daysFromCivil y m d))

theorem goDate_of_valid_month (y m d : Int) (h1 : 1 ≤ m) (h2 : m ≤ 12) :
    goDate y m d = 86400 * daysFromCivil y m d := by
  unfold goDate
  have e1 : (m - 1) / 12 = 0 := by omega
  have e2 : (m - 1) % 12 + 1 = m := by omega
  rw [e1, e2, add_zero]

/-- `daysFromCivil` is linear in the day argument. -/
theorem dfc_day_linear (y m d : Int) :
    daysFromCivil y m d = daysFromCivil y m 1 + (d - 1) := by
  rw [dfc_normal, dfc_normal, dfcDoy_eq, dfcDoy_eq]
  ring

/-- The instant `t` lies in the day of its civil date. -/
theorem dateOf_correct (t : Int) :
    daysFromCivil (cyearOf t) (cmonthOf t) (cdayOf t) = daysOf t ∧
      ValidDate (cyearOf t) (cmonthOf t) (cdayOf t) := by
  exact ⟨daysFromCivil_civilFromDays (daysOf t), civil_valid (daysOf t)⟩

namespace ResEnum

theorem s_mono_le {r : Resolution} {s idx : Int → Int} (E : ResEnum r s idx)
    {k k' : Int} (h : k ≤ k') : s k ≤ s k' := by
  rcases eq_or_lt_of_le h with rfl | hlt
  · exact le_refl _
  · exact le_of_lt (E.s_mono _ _ hlt)

theorem s_lt_iff {r : Resolution} {s idx : Int → Int} (E : ResEnum r s idx)
    {k k' : Int} : s k < s k' ↔ k < k' := by
  constructor
  · intro h
    by_contra hc
    have := E.s_mono_le (by omega : k' ≤ k)
    omega
  · exact E.s_mono _ _

theorem apply_le {r : Resolution} {s idx : Int → Int} (E : ResEnum r s idx)
    (t : Int) : r.apply t ≤ t := by
  rw [E.apply_eq]; exact (E.idx_mem t).1

theorem lt_next {r : Resolution} {s idx : Int → Int} (E : ResEnum r s idx)
    (t : Int) : t < r.next t := by
  rw [E.next_eq]; exact (E.idx_mem t).2

theorem apply_apply {r : Resolution} {s idx : Int → Int} (E : ResEnum r s idx)
    (t : Int) : r.apply (r.apply t) = r.apply t := by
  rw [E.apply_eq t, E.apply_eq (s (idx t)), E.idx_s]

theorem apply_next {r : Resolution} {s idx : Int → Int} (E : ResEnum r s idx)
    (t : Int) : r.apply (r.next t) = r.next (r.apply t) := by
  rw [E.next_eq t, E.apply_eq (s (idx t + 1)), E.idx_s, E.apply_eq t,
    E.next_eq (s (idx t)), E.idx_s]

theorem idx_mono {r : Resolution} {s idx : Int → Int} (E : ResEnum r s idx)
    {u t : Int} (h : u ≤ t) : idx u ≤ idx t := by
  have h1 := (E.idx_mem u).1
  have h2 := (E.idx_mem t).2
  have hs : s (idx u) < s (idx t + 1) := by omega
  have := (E.s_lt_iff).mp hs
  omega

theorem apply_mono {r : Resolution} {s idx : Int → Int} (E : ResEnum r s idx)
    {u t : Int} (h : u ≤ t) : r.apply u ≤ r.apply t := by
  rw [E.apply_eq, E.apply_eq]
  exact E.s_mono_le (E.idx_mono h)

/-- An instant lying inside bucket `j` has bucket index `j`. -/
theorem idx_unique {r : Resolution} {s idx : Int → Int} (E : ResEnum r s idx)
    {j c : Int} (h1 : s j ≤ c) (h2 : c < s (j + 1)) : idx c = j := by
  have m1 := (E.idx_mem c).1
  have m2 := (E.idx_mem c).2
  have a1 : s (idx c) < s (j + 1) := by omega
  have a2 : s j < s (idx c + 1) := by omega
  have b1 := (E.s_lt_iff).mp a1
  have b2 := (E.s_lt_iff).mp a2
  omega

/-- An instant lying inside the bucket of `u` truncates like `u`. -/
theorem apply_eq_of_mem {r : Resolution} {s idx : Int → Int} (E : ResEnum r s idx)
    {u c : Int} (h1 : r.apply u ≤ c) (h2 : c < r.next (r.apply u)) :
    r.apply c = r.apply u := by
  rw [E.apply_eq u] at h1
  rw [E.apply_eq u, E.next_eq (s (idx u)), E.idx_s] at h2
  rw [E.apply_eq c, E.apply_eq u, E.idx_unique h1 h2]

end ResEnum

/-! ## The three resolutions are lawfully enumerated -/

theorem daysOf_mul (w : Int) : daysOf (86400 * w) = w := by
  unfold daysOf; omega

theorem cyearOf_mul (w : Int) : cyearOf (86400 * w) = cyearOfDays w := by
  unfold cyearOf; rw [daysOf_mul]

theorem cmonthOf_mul (w : Int) : cmonthOf (86400 * w) = cmonthOfDays w := by
  unfold cmonthOf; rw [daysOf_mul]

theorem cdayOf_mul (w : Int) : cdayOf (86400 * w) = cdayOfDays w := by
  unfold cdayOf; rw [daysOf_mul]

theorem daysInMonth_pos (y m : Int) : 28 ≤ daysInMonth y m := by
  unfold daysInMonth
  split_ifs <;> omega

/-- The daily resolution truncates to `86400 * daysOf`. -/
theorem dailyApply_eq (t : Int) : dailyResolution.apply t = 86400 * daysOf t := by
  show goDate (cyearOf t) (cmonthOf t) (cdayOf t) = 86400 * daysOf t
  obtain ⟨hd, hv⟩ := dateOf_correct t
  rw [goDate_of_valid_month _ _ _ hv.1 hv.2.1, hd]

theorem daily_enum : ResEnum dailyResolution dayStart daysOf := by
  constructor
  · intro t
    exact dailyApply_eq t
  · intro t
    show goDate (cyearOf (dailyResolution.apply t)) (cmonthOf (dailyResolution.apply t))
        (cdayOf (dailyResolution.apply t) + 1) = dayStart (daysOf t + 1)
    rw [dailyApply_eq t]
    obtain ⟨hd, hv⟩ := dateOf_correct t
    rw [cyearOf_mul, cmonthOf_mul, cdayOf_mul]
    unfold cyearOf cmonthOf cdayOf at hv hd
    rw [goDate_of_valid_month _ _ _ hv.1 hv.2.1]
    rw [dfc_day_linear _ _ (cdayOfDays (daysOf t) + 1), dfc_day_linear _ _ (cdayOfDays (daysOf t))] at *
    unfold dayStart
    omega
  · intro k
    exact daysOf_mul k
  · intro k k' h
    unfold dayStart; omega
  · intro t
    unfold dayStart daysOf; omega

theorem monthlyApply_eq (t : Int) :
    monthlyResolution.apply t = 86400 * daysFromCivil (cyearOf t) (cmonthOf t) 1 := by
  show goDate (cyearOf t) (cmonthOf t) 1 = _
  obtain ⟨hd, hv⟩ := dateOf_correct t
  rw [goDate_of_valid_month _ _ _ hv.1 hv.2.1]

theorem yearlyApply_eq (t : Int) :
    yearlyResolution.apply t = 86400 * daysFromCivil (cyearOf t) 1 1 := by
  show goDate (cyearOf t) 1 1 = _
  rw [goDate_of_valid_month _ _ _ (by omega) (by omega)]

theorem validDate_day1 (y m : Int) (h1 : 1 ≤ m) (h2 : m ≤ 12) : ValidDate y m 1 := by
  refine ⟨h1, h2, le_refl 1, ?_⟩
  have := daysInMonth_pos y m
  omega

theorem yearly_enum : ResEnum yearlyResolution yearStart cyearOf := by
  have capp : ∀ y : Int, cyearOf (86400 * daysFromCivil y 1 1) = y := by
    intro y
    rw [cyearOf_mul]
    exact (civil_dfc y 1 1 (validDate_day1 y 1 (by omega) (by omega))).1
  constructor
  · intro t
    exact yearlyApply_eq t
  · intro t
    show goDate (cyearOf (goDate (cyearOf t) 1 1) + 1) 1 1 = yearStart (cyearOf t + 1)
    have h1 : goDate (cyearOf t) 1 1 = 86400 * daysFromCivil (cyearOf t) 1 1 :=
      goDate_of_valid_month _ _ _ (by omega) (by omega)
    rw [h1, capp, goDate_of_valid_month _ _ _ (by omega) (by omega)]
    rfl
  · intro k
    exact capp k
  · intro k k' h
    unfold yearStart
    have := dfc_lt_dfc k 1 1 k' 1 1 (validDate_day1 k 1 (by omega) (by omega))
      (validDate_day1 k' 1 (by omega) (by omega)) (Or.inl h)
    omega
  · intro t
    obtain ⟨hd, hv⟩ := dateOf_correct t
    have hb := dfc_year_bounds (cyearOf t) (cmonthOf t) (cdayOf t) hv
    unfold yearStart
    unfold daysOf at hd
    omega

theorem monthly_enum : ResEnum monthlyResolution monthStart monthIdx := by
  have capp : ∀ (y m : Int), 1 ≤ m → m ≤ 12 →
      cyearOf (86400 * daysFromCivil y m 1) = y ∧
        cmonthOf (86400 * daysFromCivil y m 1) = m := by
    intro y m h1 h2
    rw [cyearOf_mul, cmonthOf_mul]
    have hc := civil_dfc y m 1 (validDate_day1 y m h1 h2)
    exact ⟨hc.1, hc.2.1⟩
  have hms : ∀ (y m : Int), 1 ≤ m → m ≤ 12 →
      monthStart (12 * y + (m - 1)) = 86400 * daysFromCivil y m 1 := by
    intro y m h1 h2
    unfold monthStart
    have e1 : (12 * y + (m - 1)) / 12 = y := by omega
    have e2 : (12 * y + (m - 1)) % 12 + 1 = m := by omega
    rw [e1, e2]
  constructor
  · intro t
    obtain ⟨hd, hv⟩ := dateOf_correct t
    rw [monthlyApply_eq t]
    unfold monthIdx
    rw [hms (cyearOf t) (cmonthOf t) hv.1 hv.2.1]
  · intro t
    obtain ⟨hd, hv⟩ := dateOf_correct t
    show goDate (cyearOf (goDate (cyearOf t) (cmonthOf t) 1))
        (cmonthOf (goDate (cyearOf t) (cmonthOf t) 1) + 1) 1 = monthStart (monthIdx t + 1)
    have h1 : goDate (cyearOf t) (cmonthOf t) 1 =
        86400 * daysFromCivil (cyearOf t) (cmonthOf t) 1 :=
      goDate_of_valid_month _ _ _ hv.1 hv.2.1
    obtain ⟨hcy, hcm⟩ := capp (cyearOf t) (cmonthOf t) hv.1 hv.2.1
    rw [h1, hcy, hcm]
    unfold goDate monthStart monthIdx
    have e1 : cyearOf t + (cmonthOf t + 1 - 1) / 12 =
        (12 * cyearOf t + (cmonthOf t - 1) + 1) / 12 := by omega
    have e2 : (cmonthOf t + 1 - 1) % 12 + 1 =
        (12 * cyearOf t + (cmonthOf t - 1) + 1) % 12 + 1 := by omega
    rw [e1, e2]
  · intro k
    unfold monthIdx monthStart
    have h1 : 1 ≤ k % 12 + 1 := by omega
    have h2 : k % 12 + 1 ≤ 12 := by omega
    obtain ⟨hcy, hcm⟩ := capp (k / 12) (k % 12 + 1) h1 h2
    rw [hcy, hcm]
    omega
  · intro k k' h
    unfold monthStart
    have hvk := validDate_day1 (k / 12) (k % 12 + 1) (by omega) (by omega)
    have hvk' := validDate_day1 (k' / 12) (k' % 12 + 1) (by omega) (by omega)
    rcases (by omega : k / 12 < k' / 12 ∨ (k / 12 = k' / 12 ∧ k % 12 + 1 < k' % 12 + 1))
      with hc | ⟨hc1, hc2⟩
    · have := dfc_lt_dfc _ _ _ _ _ _ hvk hvk' (Or.inl hc)
      omega
    · have := dfc_lt_dfc _ _ _ _ _ _ hvk hvk' (Or.inr ⟨hc1, Or.inl hc2⟩)
      omega
  · intro t
    obtain ⟨hd, hv⟩ := dateOf_correct t
    constructor
    · unfold monthIdx
      rw [hms (cyearOf t) (cmonthOf t) hv.1 hv.2.1]
      have hl := dfc_day_linear (cyearOf t) (cmonthOf t) (cdayOf t)
      unfold daysOf at hd
      have hd1 := hv.2.2.1
      omega
    · unfold monthIdx monthStart
      have hvd := hv
      have hm1 := hv.1
      have hm2 := hv.2.1
      have hup : daysFromCivil (cyearOf t) (cmonthOf t) (cdayOf t) <
          daysFromCivil ((12 * cyearOf t + (cmonthOf t - 1) + 1) / 12)
            ((12 * cyearOf t + (cmonthOf t - 1) + 1) % 12 + 1) 1 := by
        rcases (by omega : cmonthOf t = 12 ∨ cmonthOf t ≤ 11) with h12 | h11
        · have e1 : (12 * cyearOf t + (cmonthOf t - 1) + 1) / 12 = cyearOf t + 1 := by
            omega
          have e2 : (12 * cyearOf t + (cmonthOf t - 1) + 1) % 12 + 1 = 1 := by omega
          rw [e1, e2]
          exact dfc_lt_dfc _ _ _ _ _ _ hvd
            (validDate_day1 (cyearOf t + 1) 1 (by omega) (by omega)) (Or.inl (by omega))
        · have e1 : (12 * cyearOf t + (cmonthOf t - 1) + 1) / 12 = cyearOf t := by omega
          have e2 : (12 * cyearOf t + (cmonthOf t - 1) + 1) % 12 + 1 = cmonthOf t + 1 := by
            omega
          rw [e1, e2]
          exact dfc_lt_dfc _ _ _ _ _ _ hvd
            (validDate_day1 (cyearOf t) (cmonthOf t + 1) (by omega) (by omega))
            (Or.inr ⟨rfl, Or.inl (by omega)⟩)
      unfold daysOf at hd
      omega

namespace SMap

variable {κ : Type} [LinearOrder κ] {α : Type}

theorem sorted_nil : Sorted ([] : List (κ × α)) := List.Pairwise.nil

theorem sorted_cons {p : κ × α} {l : List (κ × α)} :
    Sorted (p :: l) ↔ (∀ q ∈ l, p.1 < q.1) ∧ Sorted l := List.pairwise_cons

theorem lookup_eq_none {k : κ} {l : List (κ × α)} (h : ∀ q ∈ l, k ≠ q.1) :
    lookup k l = none := by
  induction l with
  | nil => rfl
  | cons p rest ih =>
    simp only [lookup, if_neg (h p (List.mem_cons_self p rest))]
    exact ih fun q hq => h q (List.mem_cons_of_mem p hq)

theorem lookup_insert (k k₂ : κ) (v : α) (l : List (κ × α)) :
    lookup k₂ (insert k v l) = if k₂ = k then some v else lookup k₂ l := by
  induction l with
  | nil => simp [insert, lookup]
  | cons p rest ih =>
    obtain ⟨k₃, v₃⟩ := p
    simp only [insert]
    by_cases h1 : k < k₃
    · rw [if_pos h1]
      simp only [lookup]
    · rw [if_neg h1]
      by_cases h2 : k = k₃
      · rw [if_pos h2]
        subst h2
        simp only [lookup]
        by_cases hk : k₂ = k <;> simp [hk]
      · rw [if_neg h2]
        simp only [lookup, ih]
        by_cases hk : k₂ = k₃
        · have hnk : ¬ k₂ = k := by
            rw [hk]; intro hh; exact h2 hh.symm
          rw [if_pos hk, if_neg hnk, if_pos hk]
        · simp only [if_neg hk]

theorem mem_insert {q : κ × α} {k : κ} {v : α} {l : List (κ × α)}
    (h : q ∈ insert k v l) : q = (k, v) ∨ q ∈ l := by
  induction l with
  | nil =>
    simp only [insert, List.mem_singleton] at h
    exact Or.inl h
  | cons p rest ih =>
    obtain ⟨k₃, v₃⟩ := p
    simp only [insert] at h
    split_ifs at h with h1 h2
    · rcases List.mem_cons.mp h with h | h
      · exact Or.inl h
      · exact Or.inr h
    · rcases List.mem_cons.mp h with h | h
      · exact Or.inl h
      · exact Or.inr (List.mem_cons_of_mem _ h)
    · rcases List.mem_cons.mp h with h | h
      · exact Or.inr (by rw [h]; exact List.mem_cons_self _ _)
      · rcases ih h with h₂ | h₂
        · exact Or.inl h₂
        · exact Or.inr (List.mem_cons_of_mem _ h₂)

theorem insert_sorted {k : κ} {v : α} {l : List (κ × α)} (hs : Sorted l) :
    Sorted (insert k v l) := by
  induction l with
  | nil => simp [insert, Sorted]
  | cons p rest ih =>
    obtain ⟨hh, ht⟩ := sorted_cons.mp hs
    obtain ⟨k₃, v₃⟩ := p
    simp only [insert]
    split_ifs with h1 h2
    · refine sorted_cons.mpr ⟨?_, hs⟩
      intro q hq
      rcases List.mem_cons.mp hq with rfl | hq
      · exact h1
      · exact lt_trans h1 (hh q hq)
    · subst h2
      exact sorted_cons.mpr ⟨hh, ht⟩
    · have hlt : k₃ < k := by
        rcases lt_trichotomy k k₃ with h | h | h
        · exact absurd h h1
        · exact absurd h h2
        · exact h
      refine sorted_cons.mpr ⟨?_, ih ht⟩
      intro q hq
      rcases mem_insert hq with rfl | hq
      · exact hlt
      · exact hh q hq

theorem lookup_head {p : κ × α} {l : List (κ × α)} :
    lookup p.1 (p :: l) = some p.2 := by
  obtain ⟨k, v⟩ := p
  simp [lookup]

/-- Extensionality for canonically sorted maps. -/
theorem ext {l l₂ : List (κ × α)} (hs : Sorted l) (hs₂ : Sorted l₂)
    (h : ∀ k, lookup k l = lookup k l₂) : l = l₂ := by
  induction l generalizing l₂ with
  | nil =>
    cases l₂ with
    | nil => rfl
    | cons p rest =>
      have := h p.1
      rw [lookup_head] at this
      simp [lookup] at this
  | cons p rest ih =>
    cases l₂ with
    | nil =>
      have := h p.1
      rw [lookup_head] at this
      simp [lookup] at this
    | cons q rest₂ =>
      obtain ⟨hh, ht⟩ := sorted_cons.mp hs
      obtain ⟨hh₂, ht₂⟩ := sorted_cons.mp hs₂
      have hks : p.1 = q.1 := by
        by_contra hne
        rcases lt_trichotomy p.1 q.1 with hlt | heq | hgt
        · have h1 := h p.1
          rw [lookup_head] at h1
          have : lookup p.1 (q :: rest₂) = none := by
            refine lookup_eq_none ?_
            intro r hr
            rcases List.mem_cons.mp hr with rfl | hr
            · exact ne_of_lt hlt
            · exact ne_of_lt (lt_trans hlt (hh₂ r hr))
          rw [this] at h1
          exact Option.noConfusion h1
        · exact hne heq
        · have h1 := (h q.1).symm
          rw [lookup_head] at h1
          have : lookup q.1 (p :: rest) = none := by
            refine lookup_eq_none ?_
            intro r hr
            rcases List.mem_cons.mp hr with rfl | hr
            · exact ne_of_lt hgt
            · exact ne_of_lt (lt_trans hgt (hh r hr))
          rw [this] at h1
          exact Option.noConfusion h1
      have hvs : p.2 = q.2 := by
        have h1 := h p.1
        rw [lookup_head] at h1
        rw [hks, lookup_head] at h1
        exact Option.some.inj h1
      have hpq : p = q := by
        obtain ⟨pa, pb⟩ := p
        obtain ⟨qa, qb⟩ := q
        simp only [Prod.mk.injEq]
        exact ⟨hks, hvs⟩
      subst hpq
      congr 1
      refine ih ht ht₂ ?_
      intro k
      by_cases hk : k = p.1
      · subst hk
        rw [lookup_eq_none fun r hr => ne_of_lt (hh r hr),
          lookup_eq_none fun r hr => ne_of_lt (hh₂ r hr)]
      · have h1 := h k
        simp only [lookup] at h1
        obtain ⟨kp, vp⟩ := p
        simp only [if_neg hk] at h1
        exact h1

theorem mergeFold_nil (f : α → α → α) (m : List (κ × α)) : mergeFold f m [] = m := rfl

theorem mergeFold_cons (f : α → α → α) (m : List (κ × α)) (k : κ) (v : α)
    (rest : List (κ × α)) :
    mergeFold f m ((k, v) :: rest) =
      mergeFold f
        (match lookup k m with
          | some ex => insert k (f ex v) m
          | none => insert k v m) rest := rfl

theorem mergeFold_sorted {f : α → α → α} {m l : List (κ × α)} (hm : Sorted m) :
    Sorted (mergeFold f m l) := by
  induction l generalizing m with
  | nil => exact hm
  | cons p rest ih =>
    obtain ⟨k, v⟩ := p
    rw [mergeFold_cons]
    cases lookup k m with
    | none => exact ih (insert_sorted hm)
    | some ex => exact ih (insert_sorted hm)

/-- What `mergeFold` holds at each key. -/
theorem lookup_mergeFold (f : α → α → α) {m l : List (κ × α)} (hl : Sorted l)
    (k : κ) :
    lookup k (mergeFold f m l) =
      match lookup k m, lookup k l with
      | some a, some b => some (f a b)
      | some a, none => some a
      | none, some b => some b
      | none, none => none := by
  induction l generalizing m with
  | nil =>
    rw [mergeFold_nil]
    cases lookup k m <;> rfl
  | cons p rest ih =>
    obtain ⟨k₀, v₀⟩ := p
    obtain ⟨hh, ht⟩ := sorted_cons.mp hl
    rw [mergeFold_cons]
    by_cases hk : k = k₀
    · subst hk
      have hrest : lookup k rest = none :=
        lookup_eq_none fun q hq => ne_of_lt (hh q hq)
      rw [ih ht]
      cases hm : lookup k m with
      | none =>
        rw [lookup_insert, if_pos rfl, hrest]
        simp [lookup]
      | some ex =>
        rw [lookup_insert, if_pos rfl, hrest]
        simp [lookup]
    · have hstep :
          lookup k (match lookup k₀ m with
            | some ex => insert k₀ (f ex v₀) m
            | none => insert k₀ v₀ m) = lookup k m := by
        cases lookup k₀ m with
        | none => rw [lookup_insert, if_neg hk]
        | some ex => rw [lookup_insert, if_neg hk]
      rw [ih ht, hstep]
      simp only [lookup, if_neg hk]

theorem mergeFold_comm {f : α → α → α} {m l : List (κ × α)} (hm : Sorted m)
    (hl : Sorted l)
    (hcomm : ∀ k a b, lookup k m = some a → lookup k l = some b → f a b = f b a) :
    mergeFold f m l = mergeFold f l m := by
  refine ext (mergeFold_sorted hm) (mergeFold_sorted hl) fun k => ?_
  rw [lookup_mergeFold f hl, lookup_mergeFold f hm]
  cases h1 : lookup k m with
  | none => cases h2 : lookup k l <;> rfl
  | some a =>
    cases h2 : lookup k l with
    | none => rfl
    | some b => simp [hcomm k a b h1 h2]

theorem mergeFold_assoc {f : α → α → α} {m l n : List (κ × α)} (hm : Sorted m)
    (hl : Sorted l) (hn : Sorted n)
    (hassoc : ∀ k a b c, lookup k m = some a → lookup k l = some b →
      lookup k n = some c → f (f a b) c = f a (f b c)) :
    mergeFold f (mergeFold f m l) n = mergeFold f m (mergeFold f l n) := by
  refine ext (mergeFold_sorted (mergeFold_sorted hm)) (mergeFold_sorted hm)
    fun k => ?_
  rw [lookup_mergeFold f hn, lookup_mergeFold f hl,
    lookup_mergeFold f (mergeFold_sorted hl : Sorted (mergeFold f l n)),
    lookup_mergeFold f hn]
  cases h1 : lookup k m with
  | none => cases h2 : lookup k l <;> cases h3 : lookup k n <;> rfl
  | some a =>
    cases h2 : lookup k l with
    | none => cases h3 : lookup k n <;> rfl
    | some b =>
      cases h3 : lookup k n with
      | none => rfl
      | some c => simp [hassoc k a b c h1 h2 h3]

end SMap

theorem calcResolution_cases (start endT : Int) :
    calcResolution start endT = yearlyResolution ∨
      calcResolution start endT = monthlyResolution ∨
      calcResolution start endT = dailyResolution := by
  unfold calcResolution
  split_ifs <;> simp

/-- Every resolution returned by `calcResolution` is lawfully enumerated. -/
theorem calcResolution_enum (start endT : Int) :
    ∃ s idx, ResEnum (calcResolution start endT) s idx := by
  unfold calcResolution
  split_ifs
  · exact ⟨yearStart, cyearOf, yearly_enum⟩
  · exact ⟨monthStart, monthIdx, monthly_enum⟩
  · exact ⟨dayStart, daysOf, daily_enum⟩

theorem calcResolution_next_gt (start endT t : Int) :
    t < (calcResolution start endT).next t := by
  obtain ⟨s, idx, E⟩ := calcResolution_enum start endT
  exact E.lt_next t

theorem buildBucketsFuel_zero (res : Resolution) (endT t : Int) :
    buildBucketsFuel res endT 0 t = [] := rfl

theorem buildBucketsFuel_succ (res : Resolution) (endT : Int) (k : Nat) (t : Int) :
    buildBucketsFuel res endT (k + 1) t =
      if endT > t then
        newBucket (res.label t) (res.apply t) :: buildBucketsFuel res endT k (res.next t)
      else [] := rfl

/-- With enough fuel the construction is fuel-independent. -/
theorem buildBucketsFuel_adequate (res : Resolution)
    (hres : ∀ u, u < res.next u) (endT : Int) :
    ∀ (fuel fuel₂ : Nat) (t : Int), endT - t < fuel → endT - t < fuel₂ →
      buildBucketsFuel res endT fuel t = buildBucketsFuel res endT fuel₂ t := by
  intro fuel
  induction fuel with
  | zero =>
    intro fuel₂ t h1 h2
    cases fuel₂ with
    | zero => rfl
    | succ n₂ =>
      rw [buildBucketsFuel_zero, buildBucketsFuel_succ, if_neg (by omega : ¬ endT > t)]
  | succ n ih =>
    intro fuel₂ t h1 h2
    cases fuel₂ with
    | zero =>
      rw [buildBucketsFuel_zero, buildBucketsFuel_succ, if_neg (by omega : ¬ endT > t)]
    | succ n₂ =>
      by_cases hgt : endT > t
      · have hnext := hres t
        have ha : endT - res.next t < n := by omega
        have hb : endT - res.next t < n₂ := by omega
        rw [buildBucketsFuel_succ, buildBucketsFuel_succ, if_pos hgt, if_pos hgt,
          ih n₂ (res.next t) ha hb]
      · rw [buildBucketsFuel_succ, buildBucketsFuel_succ, if_neg hgt, if_neg hgt]

/-- The loop equation of `buildBuckets`: exactly the Go
`for end.After(t)` walk. -/
theorem buildBuckets_eq (res : Resolution) (hres : ∀ u, u < res.next u)
    (endT t : Int) :
    buildBuckets res endT t =
      if endT > t then
        newBucket (res.label t) (res.apply t) :: buildBuckets res endT (res.next t)
      else [] := by
  unfold buildBuckets
  by_cases hgt : endT > t
  · have hnext := hres t
    have h1 : (endT - t).toNat + 1 = ((endT - t).toNat - 1) + 1 + 1 := by omega
    rw [h1, buildBucketsFuel_succ, if_pos hgt, if_pos hgt]
    congr 1
    exact buildBucketsFuel_adequate res hres endT ((endT - t).toNat - 1 + 1)
      ((endT - res.next t).toNat + 1) (res.next t) (by omega) (by omega)
  · rw [if_neg hgt]
    have h1 : (endT - t).toNat + 1 = 0 + 1 := by omega
    rw [h1, buildBucketsFuel_succ, if_neg hgt]

/-! ## Claim theorems (first batch) -/

/-- C4: for every commit stream and end time, calling `TallyCommitsByDate`
with `TallyOpts.Mode = LastModifiedMode` returns the descriptive error
(wrapped by the deferred context) and an empty bucket list; the result does
not depend on the stream, i.e. no commit is pulled. -/
theorem C4_last_modified_mode_errors (commits : List (Except String Commit))
    (opts : TallyOpts) (endT : Int) (h : opts.Mode = TallyMode.LastModifiedMode) :
    TallyCommitsByDate commits opts endT =
      some ([], some (tallyWrap "Last modified mode not implemented")) := by
  unfold TallyCommitsByDate
  rw [if_pos h]

theorem C4_witness :
    TallyCommitsByDate [Except.ok sampleCommitA]
        ⟨TallyMode.LastModifiedMode, fun c => c.AuthorEmail⟩ (goDate 2024 2 10) =
      some ([], some (tallyWrap "Last modified mode not implemented")) :=
  C4_last_modified_mode_errors _ _ _ rfl

theorem yearly_ne_monthly : yearlyResolution ≠ monthlyResolution := by
  intro h
  have h2 := congrArg (fun r => r.apply (86400 * 31)) h
  revert h2
  decide

theorem yearly_ne_daily : yearlyResolution ≠ dailyResolution := by
  intro h
  have h2 := congrArg (fun r => r.apply (86400 * 31)) h
  revert h2
  decide

theorem monthly_ne_daily : monthlyResolution ≠ dailyResolution := by
  intro h
  have h2 := congrArg (fun r => r.apply (86400 * 1)) h
  revert h2
  decide

/-- C8: `calcResolution` returns exactly one of the three resolution tiers,
and for the returned resolution truncation commutes with advancement:
`apply (next t) = next (apply t)` for every instant `t`. -/
theorem C8_resolution_tiers_and_commutation (start endT : Int) :
    ((calcResolution start endT = yearlyResolution ∧
        calcResolution start endT ≠ monthlyResolution ∧
        calcResolution start endT ≠ dailyResolution) ∨
      (calcResolution start endT ≠ yearlyResolution ∧
        calcResolution start endT = monthlyResolution ∧
        calcResolution start endT ≠ dailyResolution) ∨
      (calcResolution start endT ≠ yearlyResolution ∧
        calcResolution start endT ≠ monthlyResolution ∧
        calcResolution start endT = dailyResolution)) ∧
    ∀ t, (calcResolution start endT).apply ((calcResolution start endT).next t) =
      (calcResolution start endT).next ((calcResolution start endT).apply t) := by
  constructor
  · rcases calcResolution_cases start endT with h | h | h
    · exact Or.inl ⟨h, by rw [h]; exact yearly_ne_monthly, by rw [h]; exact yearly_ne_daily⟩
    · refine Or.inr (Or.inl ⟨?_, h, ?_⟩)
      · rw [h]; exact fun hh => yearly_ne_monthly hh.symm
      · rw [h]; exact monthly_ne_daily
    · refine Or.inr (Or.inr ⟨?_, ?_, h⟩)
      · rw [h]; exact fun hh => yearly_ne_daily hh.symm
      · rw [h]; exact fun hh => monthly_ne_daily hh.symm
  · intro t
    obtain ⟨s, idx, E⟩ := calcResolution_enum start endT
    exact E.apply_next t

/-- C3 fails on the code: with commits on 2024-01-05, 2024-01-20 and
2024-02-02 and `end` 2024-02-10 the span is 36 days, at most 60, so
`calcResolution` picks the daily tier, not the monthly one, and the run
produces 36 daily buckets instead of two monthly ones. -/
theorem C3_counterexample :
    calcResolution (goDate 2024 1 5) (goDate 2024 2 10) = dailyResolution ∧
      dailyResolution ≠ monthlyResolution ∧
      (TallyCommitsByDate [.ok sampleCommitA, .ok sampleCommitB, .ok sampleCommitC]
          sampleOpts (goDate 2024 2 10)).map (fun p => p.1.length) = some 36 := by
  refine ⟨?_, fun hh => monthly_ne_daily hh.symm, ?_⟩
  · unfold calcResolution
    rw [if_neg (by decide), if_neg (by decide)]
  · decide

/-- C3 (amended): on that input the code selects the daily tier and builds
36 buckets, 2024-01-05 through 2024-02-09; since the first pulled commit is
not re-injected, only the 2024-01-20 and 2024-02-02 buckets are non-empty,
with one commit each. -/
theorem C3_daily_buckets :
    (TallyCommitsByDate [.ok sampleCommitA, .ok sampleCommitB, .ok sampleCommitC]
        sampleOpts (goDate 2024 2 10)).map
        (fun p => (p.2, p.1.length, (p.1.map (fun b => b.Name)).head?,
          (p.1.map (fun b => b.Name)).getLast?,
          p.1.filterMap (fun b => if b.tallies.isEmpty then none
            else some (b.Name, b.tallies.map (fun kv => (kv.1, kv.2.numTallied)))))) =
      some (none, 36, some "2024-01-05", some "2024-02-09",
        [("2024-01-20", [("alice@example.com", 1)]),
          ("2024-02-02", [("bob@example.com", 1)])]) := by
  rfl

/-- C1 fails on the code: a stream holding one commit (2024-01-05, one file
diff) tallies into nothing — the bucket list spans the commit's bucket, but
every bucket keeps an empty tally map, because the first commit is pulled
to seed resolution selection and never re-injected (bucket.go line 233
starts the loop with a fresh pull). -/
theorem C1_first_commit_never_tallied :
    TallyCommitsByDate [.ok sampleCommitA] sampleOpts (goDate 2024 1 10) =
      some ([newBucket "2024-01-05" (goDate 2024 1 5),
        newBucket "2024-01-06" (goDate 2024 1 6),
        newBucket "2024-01-07" (goDate 2024 1 7),
        newBucket "2024-01-08" (goDate 2024 1 8),
        newBucket "2024-01-09" (goDate 2024 1 9)], none) := by
  decide

/-- C9: in the store-passing rendering of `TimeBucket.Combine`, the merged
bucket is the receiver struct itself — sharing the receiver's tallies-map
reference — and the merge writes the combined per-author tallies through
that reference, so the receiver's map afterwards holds the merged contents,
not its pre-combine ones. -/
theorem C9_combine_mutates_receiver (store : List (List (String × Tally)))
    (a b : TimeBucketRef) (ma mb : List (String × Tally))
    (hma : store[a.talliesRef]? = some ma) (hmb : store[b.talliesRef]? = some mb)
    (hn : a.Name = b.Name) (ht : a.Time = b.Time) :
    TimeBucketRef.CombineH store a b =
      some (store.set a.talliesRef (SMap.mergeFold Tally.Combine ma mb), a) ∧
      (store.set a.talliesRef
          (SMap.mergeFold Tally.Combine ma mb))[a.talliesRef]? =
        some (SMap.mergeFold Tally.Combine ma mb) := by
  constructor
  · unfold TimeBucketRef.CombineH
    rw [if_neg (by simp [hn]), if_neg (by simp [ht]), hma, hmb]
  · have hlen : a.talliesRef < store.length := by
      by_contra hc
      rw [List.getElem?_eq_none (by omega)] at hma
      exact Option.noConfusion hma
    rw [List.getElem?_set_self]
    exact hlen

theorem C9_witness :
    TimeBucketRef.CombineH sampleStore sampleRefA sampleRefB =
      some (sampleStore.set sampleRefA.talliesRef
        (SMap.mergeFold Tally.Combine
          [("alice@example.com", sampleTallyA)] [("bob@example.com", sampleTallyB)]),
        sampleRefA) ∧
      (sampleStore.set sampleRefA.talliesRef
          (SMap.mergeFold Tally.Combine
            [("alice@example.com", sampleTallyA)]
            [("bob@example.com", sampleTallyB)]))[sampleRefA.talliesRef]? =
        some (SMap.mergeFold Tally.Combine
          [("alice@example.com", sampleTallyA)] [("bob@example.com", sampleTallyB)]) :=
  C9_combine_mutates_receiver sampleStore sampleRefA sampleRefB _ _ rfl rfl rfl rfl

/-- C7 fails on the code as an unconditional statement: two buckets sharing
label and time but carrying different cached winning tallies (as left by
`Rank`) merge unsymmetrically — `merged := a` keeps the receiver's cached
fields — so `TimeSeries.Combine` is not commutative on such series. -/
theorem C7_counterexample :
    TimeSeries.Combine [rankedBucketA] [rankedBucketB] ≠
      TimeSeries.Combine [rankedBucketB] [rankedBucketA] := by
  decide

/-! ## Structure of the pre-built bucket list -/

theorem next_fix {r : Resolution} {s idx : Int → Int} (E : ResEnum r s idx)
    {t : Int} (ht : r.apply t = t) : r.apply (r.next t) = r.next t := by
  rw [E.apply_next t, ht]

/-- Every bucket of the walk is a fresh bucket at an `apply`-fixed time in
`[t, endT)`, labelled by its own time. -/
theorem buildBuckets_mem {res : Resolution} {s idx : Int → Int}
    (E : ResEnum res s idx) (endT : Int) :
    ∀ (n : Nat) (t : Int), endT - t ≤ n → res.apply t = t →
      ∀ b ∈ buildBuckets res endT t,
        b = newBucket (res.label b.Time) b.Time ∧ res.apply b.Time = b.Time ∧
          t ≤ b.Time ∧ b.Time < endT := by
  intro n
  induction n with
  | zero =>
    intro t hn ht b hb
    rw [buildBuckets_eq res (fun u => E.lt_next u) endT t,
      if_neg (by omega : ¬ endT > t)] at hb
    exact absurd hb (List.not_mem_nil b)
  | succ n ih =>
    intro t hn ht b hb
    rw [buildBuckets_eq res (fun u => E.lt_next u) endT t] at hb
    by_cases hgt : endT > t
    · rw [if_pos hgt] at hb
      rcases List.mem_cons.mp hb with rfl | hb
      · have hTime : (newBucket (res.label t) (res.apply t)).Time = t := by
          simp [newBucket, ht]
        refine ⟨?_, ?_, ?_, ?_⟩
        · rw [hTime, ht]
        · rw [hTime]; exact ht
        · rw [hTime]
        · rw [hTime]; exact hgt
      · have hnext := E.lt_next t
        obtain ⟨h1, h2, h3, h4⟩ := ih (res.next t) (by omega) (next_fix E ht) b hb
        exact ⟨h1, h2, by omega, h4⟩
    · rw [if_neg hgt] at hb
      exact absurd hb (List.not_mem_nil b)

/-- Bucket times of the walk are strictly increasing, consecutive via
`next`. -/
theorem buildBuckets_chain {res : Resolution} {s idx : Int → Int}
    (E : ResEnum res s idx) (endT : Int) :
    ∀ (n : Nat) (t : Int), endT - t ≤ n → res.apply t = t →
      List.Chain' (fun b b₂ => b.Time < b₂.Time ∧ b₂.Time = res.next b.Time)
        (buildBuckets res endT t) := by
  intro n
  induction n with
  | zero =>
    intro t hn ht
    rw [buildBuckets_eq res (fun u => E.lt_next u) endT t,
      if_neg (by omega : ¬ endT > t)]
    exact List.chain'_nil
  | succ n ih =>
    intro t hn ht
    rw [buildBuckets_eq res (fun u => E.lt_next u) endT t]
    by_cases hgt : endT > t
    · rw [if_pos hgt]
      have hnext := E.lt_next t
      refine List.chain'_cons'.mpr ⟨?_, ih (res.next t) (by omega) (next_fix E ht)⟩
      intro b₂ hb₂
      have hmem : b₂ ∈ buildBuckets res endT (res.next t) := by
        cases hB : buildBuckets res endT (res.next t) with
        | nil => rw [hB] at hb₂; exact absurd hb₂ (by simp)
        | cons x xs =>
          rw [hB] at hb₂
          have hxb : x = b₂ := by simpa using hb₂
          rw [← hxb]
          exact List.mem_cons_self x xs
      obtain ⟨h1, h2, h3, h4⟩ := buildBuckets_mem E endT n (res.next t)
        (by omega) (next_fix E ht) b₂ hmem
      constructor
      · show (newBucket (res.label t) (res.apply t)).Time < b₂.Time
        show res.apply t < b₂.Time
        rw [ht]; omega
      · -- head of the tail has time exactly next t
        have hhead : b₂.Time = res.next t := by
          rw [buildBuckets_eq res (fun u => E.lt_next u) endT (res.next t)] at hb₂
          by_cases hgt₂ : endT > res.next t
          · rw [if_pos hgt₂] at hb₂
            simp only [List.head?] at hb₂
            have : newBucket (res.label (res.next t)) (res.apply (res.next t)) = b₂ := by
              injection hb₂
            rw [← this]
            show res.apply (res.next t) = res.next t
            exact next_fix E ht
          · rw [if_neg hgt₂] at hb₂
            simp at hb₂
        show b₂.Time = res.next (newBucket (res.label t) (res.apply t)).Time
        show b₂.Time = res.next (res.apply t)
        rw [ht, hhead]
    · rw [if_neg hgt]
      exact List.chain'_nil

theorem buildBuckets_pairwise {res : Resolution} {s idx : Int → Int}
    (E : ResEnum res s idx) (endT t : Int) (ht : res.apply t = t) :
    List.Pairwise (fun b b₂ => b.Time < b₂.Time) (buildBuckets res endT t) := by
  have hc := buildBuckets_chain E endT (endT - t).toNat t (by omega) ht
  have hlt : List.Chain' (fun b b₂ => b.Time < b₂.Time) (buildBuckets res endT t) :=
    List.Chain'.imp (fun a b h => h.1) hc
  haveI : IsTrans TimeBucket (fun b b₂ => b.Time < b₂.Time) :=
    ⟨fun a b c h1 h2 => lt_trans h1 h2⟩
  exact List.chain'_iff_pairwise.mp hlt

/-- Covering: any `apply`-fixed time in `[t, endT)` is some walk bucket's
time. -/
theorem buildBuckets_covering {res : Resolution} {s idx : Int → Int}
    (E : ResEnum res s idx) (endT : Int) :
    ∀ (n : Nat) (t u : Int), endT - t ≤ n → res.apply t = t →
      t ≤ res.apply u → res.apply u < endT →
      ∃ (j : Nat) (b : TimeBucket), (buildBuckets res endT t)[j]? = some b ∧
        b.Time = res.apply u := by
  intro n
  induction n with
  | zero =>
    intro t u hn ht h1 h2
    omega
  | succ n ih =>
    intro t u hn ht h1 h2
    have hgt : endT > t := by omega
    rw [buildBuckets_eq res (fun u₂ => E.lt_next u₂) endT t, if_pos hgt]
    by_cases heq : res.apply u = t
    · refine ⟨0, newBucket (res.label t) (res.apply t), by rw [List.getElem?_cons_zero], ?_⟩
      show res.apply t = res.apply u
      rw [ht, heq]
    · have hnext := E.lt_next t
      have hstep : res.next t ≤ res.apply u := by
        -- apply u is a bucket start strictly above the bucket start t
        have hfix : res.apply (res.apply u) = res.apply u := E.apply_apply u
        by_contra hc
        have := E.apply_eq_of_mem (u := t) (c := res.apply u)
          (by rw [ht]; omega) (by rw [ht]; omega)
        rw [hfix, ht] at this
        exact heq this
      obtain ⟨j, b, hj, hb⟩ := ih (res.next t) u (by omega) (next_fix E ht) hstep h2
      exact ⟨j + 1, b, by rw [List.getElem?_cons_succ]; exact hj, hb⟩

/-! ## Characterization of the tally loop -/

theorem advanceFuel_succ (buckets : List TimeBucket) (bt : Int) (fuel j : Nat) :
    advanceFuel buckets bt (fuel + 1) j =
      match buckets[j]? with
      | none => none
      | some b => if bt = b.Time then some j else advanceFuel buckets bt fuel (j + 1) := rfl

/-- The forward scan finds the unique in-range bucket holding time `bt`. -/
theorem advanceFuel_finds (buckets : List TimeBucket) (bt : Int) :
    ∀ (fuel start j : Nat) (b : TimeBucket), start ≤ j → buckets[j]? = some b →
      b.Time = bt →
      (∀ (k : Nat) (bk : TimeBucket), start ≤ k → k < j → buckets[k]? = some bk →
        bk.Time ≠ bt) →
      buckets.length + 1 - start ≤ fuel →
      advanceFuel buckets bt fuel start = some j := by
  intro fuel
  induction fuel with
  | zero =>
    intro start j b hsj hget hbt hblock hfuel
    have hjlen : j < buckets.length := (List.getElem?_eq_some.mp hget).1
    omega
  | succ n ih =>
    intro start j b hsj hget hbt hblock hfuel
    have hjlen : j < buckets.length := (List.getElem?_eq_some.mp hget).1
    have hslen : start < buckets.length := by omega
    rw [advanceFuel_succ]
    have hsome : buckets[start]? = some buckets[start] := List.getElem?_eq_getElem hslen
    rw [hsome]
    show (if bt = buckets[start].Time then some start
      else advanceFuel buckets bt n (start + 1)) = some j
    by_cases heq : bt = buckets[start].Time
    · have hsj₂ : start = j := by
        by_contra hne
        exact hblock start buckets[start] (le_refl start) (by omega) hsome heq.symm
      rw [if_pos heq, hsj₂]
    · rw [if_neg heq]
      have hsj₃ : start ≠ j := by
        intro hc
        subst hc
        rw [hget] at hsome
        have : b = buckets[start] := by injection hsome
        rw [← this] at heq
        exact heq hbt.symm
      exact ih (start + 1) j b (by omega) hget hbt
        (fun k bk hk1 hk2 hk3 => hblock k bk (by omega) hk2 hk3) (by omega)

theorem advance_finds (buckets : List TimeBucket) (bt : Int) (start j : Nat)
    (b : TimeBucket) (hsj : start ≤ j) (hget : buckets[j]? = some b)
    (hbt : b.Time = bt)
    (hblock : ∀ (k : Nat) (bk : TimeBucket), start ≤ k → k < j →
      buckets[k]? = some bk → bk.Time ≠ bt) :
    advance buckets bt start = some j :=
  advanceFuel_finds buckets bt (buckets.length + 1) start j b hsj hget hbt hblock
    (by omega)

theorem tallyAllRes_nil (opts : TallyOpts) (res : Resolution)
    (buckets : List TimeBucket) : tallyAllRes opts res [] buckets = buckets := by
  unfold tallyAllRes bucketFold
  simp only [List.filter_nil, List.foldl_nil]
  exact List.map_id buckets

theorem tallyLoop_nil_eq (opts : TallyOpts) (res : Resolution)
    (buckets : List TimeBucket) (i : Nat) :
    tallyLoop opts res buckets i [] = some (buckets, none) := rfl

theorem tallyLoop_err_eq (opts : TallyOpts) (res : Resolution)
    (buckets : List TimeBucket) (i : Nat) (e : String)
    (rest : List (Except String Commit)) :
    tallyLoop opts res buckets i (.error e :: rest) =
      some (buckets, some (tallyWrap ("error iterating commits: " ++ e))) := rfl

theorem tallyLoop_ok_eq (opts : TallyOpts) (res : Resolution)
    (buckets : List TimeBucket) (i : Nat) (c : Commit)
    (rest : List (Except String Commit)) :
    tallyLoop opts res buckets i (.ok c :: rest) =
      match buckets[i]? with
      | none => none
      | some bucket =>
        match (if res.apply c.Date > bucket.Time then
            advance buckets (res.apply c.Date) (i + 1) else some i) with
        | none => none
        | some j =>
          match buckets[j]? with
          | none => none
          | some bucketJ =>
            tallyLoop opts res
              (buckets.set j
                { bucketJ with tallies := tallyCommitInto opts c bucketJ.tallies })
              j rest := rfl

/-- Folding the head commit into its bucket commutes with the semantic
form. -/
theorem tallyAllRes_step (opts : TallyOpts) (res : Resolution)
    (buckets : List TimeBucket) (j : Nat) (bj : TimeBucket) (c : Commit)
    (cs : List Commit) (hget : buckets[j]? = some bj)
    (hbt : res.apply c.Date = bj.Time)
    (hasc : List.Pairwise (fun b b₂ => b.Time < b₂.Time) buckets) :
    tallyAllRes opts res (c :: cs) buckets =
      tallyAllRes opts res cs
        (buckets.set j { bj with tallies := tallyCommitInto opts c bj.tallies }) := by
  have hjlen : j < buckets.length := (List.getElem?_eq_some.mp hget).1
  have hbj : buckets[j] = bj := by
    have := List.getElem?_eq_getElem hjlen
    rw [hget] at this
    exact (Option.some.inj this).symm
  apply List.ext_getElem?
  intro k
  unfold tallyAllRes
  rw [List.getElem?_map, List.getElem?_map]
  by_cases hk : k = j
  · subst hk
    rw [hget, List.getElem?_set_self hjlen]
    refine congrArg some ?_
    unfold bucketFold
    dsimp only
    simp only [TimeBucket.mk.injEq, true_and]
    have hstep : List.filter (fun c₂ => decide (res.apply c₂.Date = bj.Time)) (c :: cs) =
        c :: List.filter (fun c₂ => decide (res.apply c₂.Date = bj.Time)) cs := by
      simp only [List.filter_cons, decide_eq_true_eq]
      rw [if_pos hbt]
    rw [hstep, List.foldl_cons]
  · rw [List.getElem?_set_ne (fun hh => hk hh.symm)]
    cases hbk : buckets[k]? with
    | none => rfl
    | some bk =>
      refine congrArg some ?_
      have hne : res.apply c.Date ≠ bk.Time := by
        have hklen : k < buckets.length := (List.getElem?_eq_some.mp hbk).1
        have hbkk : buckets[k] = bk := by
          have h₂ := List.getElem?_eq_getElem hklen
          rw [hbk] at h₂
          exact (Option.some.inj h₂).symm
        have hpw := List.pairwise_iff_getElem.mp hasc
        rcases Nat.lt_or_ge k j with hlt | hge
        · have h₃ := hpw k j hklen hjlen hlt
          rw [hbkk, hbj] at h₃
          omega
        · have hlt₂ : j < k := by omega
          have h₃ := hpw j k hjlen hklen hlt₂
          rw [hbkk, hbj] at h₃
          omega
      unfold bucketFold
      dsimp only
      simp only [TimeBucket.mk.injEq, true_and]
      have hstep : List.filter (fun c₂ => decide (res.apply c₂.Date = bk.Time)) (c :: cs) =
          List.filter (fun c₂ => decide (res.apply c₂.Date = bk.Time)) cs := by
        simp only [List.filter_cons, decide_eq_true_eq]
        rw [if_neg hne]
      rw [hstep]

theorem tallyLoop_ok_some (opts : TallyOpts) (res : Resolution)
    (buckets : List TimeBucket) (i : Nat) (c : Commit)
    (rest : List (Except String Commit)) (bucket : TimeBucket)
    (hb : buckets[i]? = some bucket) :
    tallyLoop opts res buckets i (.ok c :: rest) =
      match (if res.apply c.Date > bucket.Time then
          advance buckets (res.apply c.Date) (i + 1) else some i) with
      | none => none
      | some j =>
        match buckets[j]? with
        | none => none
        | some bucketJ =>
          tallyLoop opts res
            (buckets.set j
              { bucketJ with tallies := tallyCommitInto opts c bucketJ.tallies })
            j rest := by
  rw [tallyLoop_ok_eq, hb]

theorem tallyLoop_ok_step (opts : TallyOpts) (res : Resolution)
    (buckets : List TimeBucket) (i : Nat) (c : Commit)
    (rest : List (Except String Commit)) (bucket : TimeBucket) (j : Nat)
    (bucketJ : TimeBucket) (hb : buckets[i]? = some bucket)
    (hsel : (if res.apply c.Date > bucket.Time then
      advance buckets (res.apply c.Date) (i + 1) else some i) = some j)
    (hj : buckets[j]? = some bucketJ) :
    tallyLoop opts res buckets i (.ok c :: rest) =
      tallyLoop opts res
        (buckets.set j { bucketJ with tallies := tallyCommitInto opts c bucketJ.tallies })
        j rest := by
  rw [tallyLoop_ok_some opts res buckets i c rest bucket hb, hsel]
  dsimp only
  rw [hj]

theorem pairwise_time_set (buckets : List TimeBucket) (j : Nat) (bj bj₂ : TimeBucket)
    (hget : buckets[j]? = some bj) (htime : bj₂.Time = bj.Time)
    (hasc : List.Pairwise (fun b b₃ => b.Time < b₃.Time) buckets) :
    List.Pairwise (fun b b₃ => b.Time < b₃.Time) (buckets.set j bj₂) := by
  have hjlen : j < buckets.length := (List.getElem?_eq_some.mp hget).1
  have hbj : buckets[j] = bj := by
    have h₂ := List.getElem?_eq_getElem hjlen
    rw [hget] at h₂
    exact (Option.some.inj h₂).symm
  rw [List.pairwise_iff_getElem] at hasc ⊢
  intro a b ha hb hab
  rw [List.length_set] at ha hb
  rw [List.getElem_set, List.getElem_set]
  by_cases hja : j = a
  · subst hja
    rw [if_pos rfl, if_neg (by omega : ¬ j = b), htime]
    have h₃ := hasc j b ha hb hab
    rw [hbj] at h₃
    exact h₃
  · rw [if_neg hja]
    by_cases hjb : j = b
    · subst hjb
      rw [if_pos rfl, htime]
      have h₃ := hasc a j ha hb hab
      rw [hbj] at h₃
      exact h₃
    · rw [if_neg hjb]
      exact hasc a b ha hb hab

/-- Main characterization of the tally loop: over in-range, bucket-ordered
commits followed by an empty or erroring remainder, the loop succeeds and
produces the semantic per-bucket accumulation together with the remainder's
error. -/
theorem tallyLoop_char (opts : TallyOpts) (res : Resolution) :
    ∀ (cs : List Commit) (tail : List (Except String Commit))
      (buckets : List TimeBucket) (i : Nat),
      (tail = [] ∨ ∃ e rest, tail = .error e :: rest) →
      List.Pairwise (fun b b₂ => b.Time < b₂.Time) buckets →
      (∀ c ∈ cs, ∃ (j : Nat) (b : TimeBucket), i ≤ j ∧ buckets[j]? = some b ∧
        b.Time = res.apply c.Date) →
      List.Pairwise (fun c c₂ => res.apply c.Date ≤ res.apply c₂.Date) cs →
      tallyLoop opts res buckets i (cs.map .ok ++ tail) =
        some (tallyAllRes opts res cs buckets, streamTailErr tail) := by
  intro cs
  induction cs with
  | nil =>
    intro tail buckets i htail hasc hin hord
    rcases htail with rfl | ⟨e, rest, rfl⟩
    · rw [List.map_nil, List.nil_append, tallyLoop_nil_eq, tallyAllRes_nil]
      rfl
    · rw [List.map_nil, List.nil_append, tallyLoop_err_eq, tallyAllRes_nil]
      rfl
  | cons c cs ih =>
    intro tail buckets i htail hasc hin hord
    obtain ⟨j, bj, hij, hget, hbt⟩ := hin c (List.mem_cons_self c cs)
    have hjlen : j < buckets.length := (List.getElem?_eq_some.mp hget).1
    have hbj : buckets[j] = bj := by
      have h₂ := List.getElem?_eq_getElem hjlen
      rw [hget] at h₂
      exact (Option.some.inj h₂).symm
    have hilen : i < buckets.length := by omega
    have hisome : buckets[i]? = some buckets[i] := List.getElem?_eq_getElem hilen
    have hpw := List.pairwise_iff_getElem.mp hasc
    rw [List.map_cons, List.cons_append]
    have hsel : (if res.apply c.Date > buckets[i].Time then
        advance buckets (res.apply c.Date) (i + 1) else some i) = some j := by
      by_cases hgt : res.apply c.Date > buckets[i].Time
      · rw [if_pos hgt]
        have hji : i < j := by
          rcases Nat.lt_or_ge i j with h | h
          · exact h
          · have hij₂ : i = j := by omega
            subst hij₂
            rw [hbj] at hgt
            omega
        refine advance_finds buckets (res.apply c.Date) (i + 1) j bj (by omega) hget hbt ?_
        intro k bk hk1 hk2 hkget
        have hklen : k < buckets.length := (List.getElem?_eq_some.mp hkget).1
        have hbk : buckets[k] = bk := by
          have h₂ := List.getElem?_eq_getElem hklen
          rw [hkget] at h₂
          exact (Option.some.inj h₂).symm
        have h₃ := hpw k j hklen hjlen hk2
        rw [hbk, hbj] at h₃
        omega
      · rw [if_neg hgt]
        have hij₂ : i = j := by
          rcases Nat.lt_or_ge i j with h | h
          · have h₃ := hpw i j hilen hjlen h
            rw [hbj] at h₃
            omega
          · omega
        rw [hij₂]
    rw [tallyLoop_ok_step opts res buckets i c (List.map Except.ok cs ++ tail)
      buckets[i] j bj hisome hsel hget]
    have hasc₂ := pairwise_time_set buckets j bj
      { bj with tallies := tallyCommitInto opts c bj.tallies } hget rfl hasc
    have hin₂ : ∀ c₂ ∈ cs, ∃ (j₂ : Nat) (b : TimeBucket), j ≤ j₂ ∧
        (buckets.set j { bj with tallies := tallyCommitInto opts c bj.tallies })[j₂]? =
          some b ∧ b.Time = res.apply c₂.Date := by
      intro c₂ hc₂
      obtain ⟨j₂, b₂, hij₂, hget₂, hbt₂⟩ := hin c₂ (List.mem_cons_of_mem c hc₂)
      have hj₂len : j₂ < buckets.length := (List.getElem?_eq_some.mp hget₂).1
      have hb₂ : buckets[j₂] = b₂ := by
        have h₂ := List.getElem?_eq_getElem hj₂len
        rw [hget₂] at h₂
        exact (Option.some.inj h₂).symm
      have hord₂ : res.apply c.Date ≤ res.apply c₂.Date :=
        (List.pairwise_cons.mp hord).1 c₂ hc₂
      have hjj₂ : j ≤ j₂ := by
        by_contra hcon
        have h₃ := hpw j₂ j hj₂len hjlen (by omega)
        rw [hb₂, hbj] at h₃
        omega
      by_cases heq : j₂ = j
      · subst heq
        refine ⟨j₂, { bj with tallies := tallyCommitInto opts c bj.tallies },
          le_refl j₂, List.getElem?_set_self hjlen, ?_⟩
        show bj.Time = res.apply c₂.Date
        rw [hget₂] at hget
        have : b₂ = bj := by injection hget
        rw [← this]
        exact hbt₂
      · exact ⟨j₂, b₂, hjj₂,
          by rw [List.getElem?_set_ne (fun hh => heq hh.symm)]; exact hget₂, hbt₂⟩
    rw [ih tail _ j htail hasc₂ hin₂ (List.Pairwise.of_cons hord)]
    rw [← tallyAllRes_step opts res buckets j bj c cs hget hbt.symm hasc]

/-! ## Top-level characterization of `TallyCommitsByDate` -/

theorem TallyCommitsByDate_ok (opts : TallyOpts)
    (hmode : ¬ opts.Mode = TallyMode.LastModifiedMode) (c₀ : Commit)
    (rest : List (Except String Commit)) (endT : Int) :
    TallyCommitsByDate (.ok c₀ :: rest) opts endT =
      tallyLoop opts (calcResolution c₀.Date endT)
        (buildBuckets (calcResolution c₀.Date endT) endT
          ((calcResolution c₀.Date endT).apply c₀.Date)) 0 rest := by
  unfold TallyCommitsByDate
  rw [if_neg hmode]

/-- Full characterization: a sorted, in-range stream of commits (after the
resolution-seeding first pull) followed by an empty or erroring remainder
tallies to the semantic per-bucket accumulation over the pre-built walk. -/
theorem TallyCommitsByDate_char (opts : TallyOpts) (endT : Int) (c₀ : Commit)
    (cs : List Commit) (tail : List (Except String Commit))
    (hmode : opts.Mode ≠ TallyMode.LastModifiedMode)
    (htail : tail = [] ∨ ∃ e rest, tail = .error e :: rest)
    (hsorted : List.Pairwise (fun c c₂ => c.Date ≤ c₂.Date) (c₀ :: cs))
    (hend : ∀ c ∈ c₀ :: cs, c.Date < endT) :
    TallyCommitsByDate (.ok c₀ :: (cs.map .ok ++ tail)) opts endT =
      some (tallyAllRes opts (calcResolution c₀.Date endT) cs
          (buildBuckets (calcResolution c₀.Date endT) endT
            ((calcResolution c₀.Date endT).apply c₀.Date)),
        streamTailErr tail) := by
  obtain ⟨s, idx, E⟩ := calcResolution_enum c₀.Date endT
  set res := calcResolution c₀.Date endT with hres
  rw [TallyCommitsByDate_ok opts hmode c₀ _ endT]
  have hfix : res.apply (res.apply c₀.Date) = res.apply c₀.Date := E.apply_apply c₀.Date
  refine tallyLoop_char opts res cs tail _ 0 htail
    (buildBuckets_pairwise E endT _ hfix) ?_ ?_
  · intro c hc
    have hc₀c : c₀.Date ≤ c.Date := (List.pairwise_cons.mp hsorted).1 c hc
    have h₁ : res.apply c₀.Date ≤ res.apply c.Date := E.apply_mono hc₀c
    have h₂ : res.apply c.Date < endT := by
      have := E.apply_le c.Date
      have := hend c (List.mem_cons_of_mem c₀ hc)
      omega
    obtain ⟨j, b, hj, hb⟩ := buildBuckets_covering E endT
      (endT - res.apply c₀.Date).toNat (res.apply c₀.Date) c.Date (by omega) hfix h₁ h₂
    exact ⟨j, b, Nat.zero_le j, hj, hb⟩
  · have h₁ := List.Pairwise.of_cons hsorted
    exact h₁.imp (fun h => E.apply_mono h)

/-! ## Shape preservation of the tally loop -/

theorem tallyLoop_ok_noneI (opts : TallyOpts) (res : Resolution)
    (buckets : List TimeBucket) (i : Nat) (c : Commit)
    (rest : List (Except String Commit)) (hb : buckets[i]? = none) :
    tallyLoop opts res buckets i (.ok c :: rest) = none := by
  rw [tallyLoop_ok_eq, hb]

theorem tallyLoop_ok_noneSel (opts : TallyOpts) (res : Resolution)
    (buckets : List TimeBucket) (i : Nat) (c : Commit)
    (rest : List (Except String Commit)) (bucket : TimeBucket)
    (hb : buckets[i]? = some bucket)
    (hsel : (if res.apply c.Date > bucket.Time then
      advance buckets (res.apply c.Date) (i + 1) else some i) = none) :
    tallyLoop opts res buckets i (.ok c :: rest) = none := by
  rw [tallyLoop_ok_some opts res buckets i c rest bucket hb, hsel]

theorem tallyLoop_ok_noneJ (opts : TallyOpts) (res : Resolution)
    (buckets : List TimeBucket) (i : Nat) (c : Commit)
    (rest : List (Except String Commit)) (bucket : TimeBucket) (j : Nat)
    (hb : buckets[i]? = some bucket)
    (hsel : (if res.apply c.Date > bucket.Time then
      advance buckets (res.apply c.Date) (i + 1) else some i) = some j)
    (hj : buckets[j]? = none) :
    tallyLoop opts res buckets i (.ok c :: rest) = none := by
  rw [tallyLoop_ok_some opts res buckets i c rest bucket hb, hsel]
  dsimp only
  rw [hj]

/-- Tallying only changes the tally maps: names and times of the returned
buckets are those of the pre-built list. -/
theorem tallyLoop_shape (opts : TallyOpts) (res : Resolution) :
    ∀ (stream : List (Except String Commit)) (buckets : List TimeBucket)
      (i : Nat) (bs : List TimeBucket) (e : Option String),
      tallyLoop opts res buckets i stream = some (bs, e) →
      bs.map (fun b => (b.Name, b.Time)) = buckets.map (fun b => (b.Name, b.Time)) := by
  intro stream
  induction stream with
  | nil =>
    intro buckets i bs e h
    rw [tallyLoop_nil_eq] at h
    have h₂ : buckets = bs := by
      have := Option.some.inj h
      exact congrArg Prod.fst this
    rw [h₂]
  | cons x rest ih =>
    intro buckets i bs e h
    cases x with
    | error e₂ =>
      rw [tallyLoop_err_eq] at h
      have h₂ : buckets = bs := congrArg Prod.fst (Option.some.inj h)
      rw [h₂]
    | ok c =>
      cases hb : buckets[i]? with
      | none =>
        rw [tallyLoop_ok_noneI opts res buckets i c rest hb] at h
        exact Option.noConfusion h
      | some bucket =>
        cases hsel : (if res.apply c.Date > bucket.Time then
            advance buckets (res.apply c.Date) (i + 1) else some i) with
        | none =>
          rw [tallyLoop_ok_noneSel opts res buckets i c rest bucket hb hsel] at h
          exact Option.noConfusion h
        | some j =>
          cases hj : buckets[j]? with
          | none =>
            rw [tallyLoop_ok_noneJ opts res buckets i c rest bucket j hb hsel hj] at h
            exact Option.noConfusion h
          | some bucketJ =>
            rw [tallyLoop_ok_step opts res buckets i c rest bucket j bucketJ hb hsel hj] at h
            have h₂ := ih _ j bs e h
            rw [h₂]
            have hjlen : j < buckets.length := (List.getElem?_eq_some.mp hj).1
            have hbj : buckets[j] = bucketJ := by
              have h₃ := List.getElem?_eq_getElem hjlen
              rw [hj] at h₃
              exact (Option.some.inj h₃).symm
            apply List.ext_getElem?
            intro k
            rw [List.getElem?_map, List.getElem?_map]
            by_cases hk : k = j
            · subst hk
              rw [List.getElem?_set_self hjlen, List.getElem?_eq_getElem hjlen, hbj]
              rfl
            · rw [List.getElem?_set_ne (fun hh => hk hh.symm)]

/-- C5: when the commit source errors mid-iteration after valid commits,
`TallyCommitsByDate` returns the error wrapped with "error iterating
commits" (and the deferred outer context) together with the same bucket
list that a run over just the valid prefix would return — partial results
are kept, not discarded. -/
theorem C5_error_keeps_partial_buckets (c₀ : Commit) (cs : List Commit) (e : String)
    (rest : List (Except String Commit)) (opts : TallyOpts) (endT : Int)
    (hmode : opts.Mode ≠ TallyMode.LastModifiedMode)
    (hsorted : List.Pairwise (fun c c₂ => c.Date ≤ c₂.Date) (c₀ :: cs))
    (hend : ∀ c ∈ c₀ :: cs, c.Date < endT) :
    ∃ B : List TimeBucket,
      TallyCommitsByDate (.ok c₀ :: (cs.map .ok ++ (.error e :: rest))) opts endT =
        some (B, some (tallyWrap ("error iterating commits: " ++ e))) ∧
      TallyCommitsByDate (.ok c₀ :: cs.map .ok) opts endT = some (B, none) := by
  refine ⟨tallyAllRes opts (calcResolution c₀.Date endT) cs
    (buildBuckets (calcResolution c₀.Date endT) endT
      ((calcResolution c₀.Date endT).apply c₀.Date)), ?_, ?_⟩
  · rw [TallyCommitsByDate_char opts endT c₀ cs (.error e :: rest) hmode
      (Or.inr ⟨e, rest, rfl⟩) hsorted hend]
    rfl
  · have h₂ := TallyCommitsByDate_char opts endT c₀ cs [] hmode (Or.inl rfl)
      hsorted hend
    rw [List.append_nil] at h₂
    rw [h₂]
    rfl

theorem C5_witness :
    ∃ B : List TimeBucket,
      TallyCommitsByDate (.ok sampleCommitA ::
          ([sampleCommitB].map .ok ++ (.error "boom" :: []))) sampleOpts
          (goDate 2024 2 10) =
        some (B, some (tallyWrap ("error iterating commits: " ++ "boom"))) ∧
      TallyCommitsByDate (.ok sampleCommitA :: [sampleCommitB].map .ok) sampleOpts
          (goDate 2024 2 10) = some (B, none) :=
  C5_error_keeps_partial_buckets sampleCommitA [sampleCommitB] "boom" [] sampleOpts
    (goDate 2024 2 10) (by decide) (by decide) (by decide)

/-- C6: any bucket list returned by `TallyCommitsByDate` (other than under
the unimplemented mode) is the pre-built walk: strictly ascending times
with no duplicates, consecutive buckets exactly one resolution step apart
(no gaps), every bucket time a truncation fixed point strictly before
`end`, the first bucket at the truncated first-commit date, and buckets
existing exactly when `end` is strictly after the walk start. -/
theorem C6_series_invariants (c₀ : Commit) (rest : List (Except String Commit))
    (opts : TallyOpts) (endT : Int) (bs : List TimeBucket) (err : Option String)
    (hmode : opts.Mode ≠ TallyMode.LastModifiedMode)
    (h : TallyCommitsByDate (.ok c₀ :: rest) opts endT = some (bs, err)) :
    List.Chain' (fun b b₂ => b.Time < b₂.Time ∧
      b₂.Time = (calcResolution c₀.Date endT).next b.Time) bs ∧
    (∀ b ∈ bs, (calcResolution c₀.Date endT).apply b.Time = b.Time ∧ b.Time < endT) ∧
    (endT > (calcResolution c₀.Date endT).apply c₀.Date →
      bs.head?.map (fun b => b.Time) =
        some ((calcResolution c₀.Date endT).apply c₀.Date)) ∧
    (bs = [] ↔ ¬ endT > (calcResolution c₀.Date endT).apply c₀.Date) := by
  obtain ⟨s, idx, E⟩ := calcResolution_enum c₀.Date endT
  set res := calcResolution c₀.Date endT with hres
  set t₀ := res.apply c₀.Date with ht₀
  set B := buildBuckets res endT t₀ with hB
  have hfix : res.apply t₀ = t₀ := E.apply_apply c₀.Date
  rw [TallyCommitsByDate_ok opts hmode c₀ rest endT] at h
  have hshape := tallyLoop_shape opts res rest B 0 bs err h
  have htimes : bs.map (fun b => b.Time) = B.map (fun b => b.Time) := by
    have h₂ := congrArg (List.map Prod.snd) hshape
    rw [List.map_map, List.map_map] at h₂
    exact h₂
  refine ⟨?_, ?_, ?_, ?_⟩
  · have hcB := buildBuckets_chain E endT (endT - t₀).toNat t₀ (by omega) hfix
    have hcT : List.Chain' (fun u v => u < v ∧ v = res.next u)
        (B.map (fun b => b.Time)) := by
      rw [List.chain'_map]
      exact hcB
    rw [← htimes, List.chain'_map] at hcT
    exact hcT
  · intro b hb
    have hmem : b.Time ∈ B.map (fun b₂ => b₂.Time) := by
      rw [← htimes]
      exact List.mem_map_of_mem _ hb
    obtain ⟨b₂, hb₂, hbt⟩ := List.mem_map.mp hmem
    obtain ⟨_, h₂, _, h₄⟩ := buildBuckets_mem E endT (endT - t₀).toNat t₀
      (by omega) hfix b₂ hb₂
    rw [← hbt]
    exact ⟨h₂, h₄⟩
  · intro hgt
    have hhead : bs.head?.map (fun b => b.Time) = B.head?.map (fun b => b.Time) := by
      rw [← List.head?_map, ← List.head?_map, htimes]
    rw [hhead, hB, buildBuckets_eq res (fun u => E.lt_next u) endT t₀, if_pos hgt]
    simp only [List.head?, Option.map_some]
    show some (res.apply t₀) = some t₀
    rw [hfix]
  · constructor
    · intro hnil
      rw [hnil] at htimes
      by_contra hc
      rw [hB, buildBuckets_eq res (fun u => E.lt_next u) endT t₀, if_pos hc] at htimes
      exact List.noConfusion (htimes)
    · intro hle
      have hBnil : B = [] := by
        rw [hB, buildBuckets_eq res (fun u => E.lt_next u) endT t₀, if_neg hle]
      rw [hBnil] at htimes
      cases bs with
      | nil => rfl
      | cons x xs =>
        rw [List.map_cons] at htimes
        exact List.noConfusion htimes

theorem C6_witness :
    List.Chain' (fun b b₂ => b.Time < b₂.Time ∧
      b₂.Time = (calcResolution sampleCommitA.Date (goDate 2024 1 10)).next b.Time)
      [newBucket "2024-01-05" (goDate 2024 1 5), newBucket "2024-01-06" (goDate 2024 1 6),
        newBucket "2024-01-07" (goDate 2024 1 7), newBucket "2024-01-08" (goDate 2024 1 8),
        newBucket "2024-01-09" (goDate 2024 1 9)] ∧
    (∀ b ∈ [newBucket "2024-01-05" (goDate 2024 1 5), newBucket "2024-01-06" (goDate 2024 1 6),
        newBucket "2024-01-07" (goDate 2024 1 7), newBucket "2024-01-08" (goDate 2024 1 8),
        newBucket "2024-01-09" (goDate 2024 1 9)],
      (calcResolution sampleCommitA.Date (goDate 2024 1 10)).apply b.Time = b.Time ∧
        b.Time < goDate 2024 1 10) ∧
    (goDate 2024 1 10 > (calcResolution sampleCommitA.Date (goDate 2024 1 10)).apply
        sampleCommitA.Date →
      ([newBucket "2024-01-05" (goDate 2024 1 5), newBucket "2024-01-06" (goDate 2024 1 6),
        newBucket "2024-01-07" (goDate 2024 1 7), newBucket "2024-01-08" (goDate 2024 1 8),
        newBucket "2024-01-09" (goDate 2024 1 9)].head?).map (fun b => b.Time) =
        some ((calcResolution sampleCommitA.Date (goDate 2024 1 10)).apply
          sampleCommitA.Date)) ∧
    ([newBucket "2024-01-05" (goDate 2024 1 5), newBucket "2024-01-06" (goDate 2024 1 6),
        newBucket "2024-01-07" (goDate 2024 1 7), newBucket "2024-01-08" (goDate 2024 1 8),
        newBucket "2024-01-09" (goDate 2024 1 9)] = ([] : List TimeBucket) ↔
      ¬ goDate 2024 1 10 > (calcResolution sampleCommitA.Date (goDate 2024 1 10)).apply
        sampleCommitA.Date) :=
  C6_series_invariants sampleCommitA [] sampleOpts (goDate 2024 1 10)
    [newBucket "2024-01-05" (goDate 2024 1 5), newBucket "2024-01-06" (goDate 2024 1 6),
      newBucket "2024-01-07" (goDate 2024 1 7), newBucket "2024-01-08" (goDate 2024 1 8),
      newBucket "2024-01-09" (goDate 2024 1 9)] none (by decide) (by decide)

/-- C10: with non-decreasing commit dates all strictly before `end` (and a
well-formed remainder), the tally loop's forward cursor never runs past the
bucket list: the run returns a value instead of hitting the
index-out-of-range panic (modelled as `none`). -/
theorem C10_no_index_overrun (c₀ : Commit) (cs : List Commit)
    (tail : List (Except String Commit)) (opts : TallyOpts) (endT : Int)
    (htail : tail = [] ∨ ∃ e rest, tail = .error e :: rest)
    (hsorted : List.Pairwise (fun c c₂ => c.Date ≤ c₂.Date) (c₀ :: cs))
    (hend : ∀ c ∈ c₀ :: cs, c.Date < endT) :
    (TallyCommitsByDate (.ok c₀ :: (cs.map .ok ++ tail)) opts endT).isSome := by
  by_cases hmode : opts.Mode = TallyMode.LastModifiedMode
  · unfold TallyCommitsByDate
    rw [if_pos hmode]
    rfl
  · rw [TallyCommitsByDate_char opts endT c₀ cs tail hmode htail hsorted hend]
    rfl

theorem C10_witness :
    (TallyCommitsByDate (.ok sampleCommitA ::
        ([sampleCommitB, sampleCommitC].map .ok ++ [])) sampleOpts
        (goDate 2024 2 10)).isSome :=
  C10_no_index_overrun sampleCommitA [sampleCommitB, sampleCommitC] [] sampleOpts
    (goDate 2024 2 10) (Or.inl rfl) (by decide) (by decide)

namespace SMap

variable {κ : Type} [LinearOrder κ] {α : Type}

theorem lookup_mem {k : κ} {v : α} : ∀ {l : List (κ × α)},
    lookup k l = some v → (k, v) ∈ l := by
  intro l
  induction l with
  | nil => intro h; exact absurd h (by simp [lookup])
  | cons p rest ih =>
    intro h
    obtain ⟨k₂, v₂⟩ := p
    simp only [lookup] at h
    by_cases hk : k = k₂
    · rw [if_pos hk] at h
      subst hk
      injection h with h
      subst h
      exact List.mem_cons_self _ _
    · rw [if_neg hk] at h
      exact List.mem_cons_of_mem _ (ih h)

theorem mem_lookup : ∀ {l : List (κ × α)}, Sorted l → ∀ {q : κ × α}, q ∈ l →
    lookup q.1 l = some q.2 := by
  intro l
  induction l with
  | nil => intro _ q hq; cases hq
  | cons p rest ih =>
    intro hs q hq
    obtain ⟨hh, ht⟩ := sorted_cons.mp hs
    rcases List.mem_cons.mp hq with rfl | hq2
    · exact lookup_head
    · have hne : q.1 ≠ p.1 := ne_of_gt (hh q hq2)
      obtain ⟨k₂, v₂⟩ := p
      simp only [lookup, if_neg hne]
      exact ih ht hq2

end SMap

theorem fileset_merge_comm {fa fb : List (String × Bool)}
    (ha : FilesetWF fa) (hb : FilesetWF fb) :
    SMap.mergeFold (fun _ v => v) fa fb = SMap.mergeFold (fun _ v => v) fb fa := by
  refine SMap.mergeFold_comm ha.1 hb.1 fun k a b h1 h2 => ?_
  have t1 := ha.2 _ (SMap.lookup_mem h1)
  have t2 := hb.2 _ (SMap.lookup_mem h2)
  simp only at t1 t2
  rw [t1, t2]

theorem fileset_merge_wf {fa fb : List (String × Bool)}
    (ha : FilesetWF fa) (hb : FilesetWF fb) :
    FilesetWF (SMap.mergeFold (fun _ v => v) fa fb) := by
  refine ⟨SMap.mergeFold_sorted ha.1, ?_⟩
  intro p hp
  have hlk := SMap.mem_lookup (SMap.mergeFold_sorted ha.1 :
    SMap.Sorted (SMap.mergeFold (fun _ v => v) fa fb)) hp
  rw [SMap.lookup_mergeFold _ hb.1] at hlk
  cases h1 : SMap.lookup p.1 fa <;> cases h2 : SMap.lookup p.1 fb <;>
    rw [h1, h2] at hlk
  · exact absurd hlk (by simp)
  · injection hlk with hlk
    rw [← hlk]
    exact hb.2 _ (SMap.lookup_mem h2)
  · injection hlk with hlk
    rw [← hlk]
    exact ha.2 _ (SMap.lookup_mem h1)
  · injection hlk with hlk
    rw [← hlk]
    exact hb.2 _ (SMap.lookup_mem h2)

theorem Tally.Combine_comm {N E : String → String} {k : String} {a b : Tally}
    (ha : TallyWF N E k a) (hb : TallyWF N E k b) :
    a.Combine b = b.Combine a := by
  obtain ⟨han, hae, haf⟩ := ha
  obtain ⟨hbn, hbe, hbf⟩ := hb
  unfold Tally.Combine
  simp only [Tally.mk.injEq]
  refine ⟨?_, ?_, by ring, by ring, by ring, fileset_merge_comm haf hbf⟩
  · rw [han, hbn]
  · rw [hae, hbe]

theorem Tally.Combine_assoc {a b c : Tally} (ha : SMap.Sorted a.fileset)
    (hb : SMap.Sorted b.fileset) (hc : SMap.Sorted c.fileset) :
    (a.Combine b).Combine c = a.Combine (b.Combine c) := by
  unfold Tally.Combine
  simp only [Tally.mk.injEq]
  refine ⟨?_, ?_, by ring, by ring, by ring,
    SMap.mergeFold_assoc ha hb hc fun _ _ _ _ _ _ _ => rfl⟩
  · by_cases h1 : a.name = "" <;> simp [h1]
  · by_cases h1 : a.email = "" <;> simp [h1]

theorem Tally.Combine_wf {N E : String → String} {k : String} {a b : Tally}
    (ha : TallyWF N E k a) (hb : TallyWF N E k b) :
    TallyWF N E k (a.Combine b) := by
  obtain ⟨han, hae, haf⟩ := ha
  obtain ⟨hbn, hbe, hbf⟩ := hb
  refine ⟨?_, ?_, fileset_merge_wf haf hbf⟩
  · show (if a.name = "" then b.name else a.name) = N k
    rw [han, hbn]
    split_ifs <;> rfl
  · show (if a.email = "" then b.email else a.email) = E k
    rw [hae, hbe]
    split_ifs <;> rfl

theorem talliesMerge_wf {N E : String → String} {m l : List (String × Tally)}
    (hm : TalliesWF N E m) (hl : TalliesWF N E l) :
    TalliesWF N E (SMap.mergeFold Tally.Combine m l) := by
  refine ⟨SMap.mergeFold_sorted hm.1, ?_⟩
  intro kv hkv
  have hlk := SMap.mem_lookup (SMap.mergeFold_sorted hm.1 :
    SMap.Sorted (SMap.mergeFold Tally.Combine m l)) hkv
  rw [SMap.lookup_mergeFold _ hl.1] at hlk
  cases h1 : SMap.lookup kv.1 m <;> cases h2 : SMap.lookup kv.1 l <;>
    rw [h1, h2] at hlk
  · exact absurd hlk (by simp)
  · injection hlk with hlk
    rw [← hlk]
    exact hl.2 _ (SMap.lookup_mem h2)
  · injection hlk with hlk
    rw [← hlk]
    exact hm.2 _ (SMap.lookup_mem h1)
  · injection hlk with hlk
    rw [← hlk]
    exact Tally.Combine_wf (hm.2 _ (SMap.lookup_mem h1)) (hl.2 _ (SMap.lookup_mem h2))

theorem talliesMerge_comm {N E : String → String} {m l : List (String × Tally)}
    (hm : TalliesWF N E m) (hl : TalliesWF N E l) :
    SMap.mergeFold Tally.Combine m l = SMap.mergeFold Tally.Combine l m :=
  SMap.mergeFold_comm hm.1 hl.1 fun _ _ _ h1 h2 =>
    Tally.Combine_comm (hm.2 _ (SMap.lookup_mem h1)) (hl.2 _ (SMap.lookup_mem h2))

theorem talliesMerge_assoc {N E : String → String} {m l n : List (String × Tally)}
    (hm : TalliesWF N E m) (hl : TalliesWF N E l) (hn : TalliesWF N E n) :
    SMap.mergeFold Tally.Combine (SMap.mergeFold Tally.Combine m l) n =
      SMap.mergeFold Tally.Combine m (SMap.mergeFold Tally.Combine l n) :=
  SMap.mergeFold_assoc hm.1 hl.1 hn.1 fun _ _ _ _ h1 h2 h3 =>
    Tally.Combine_assoc (hm.2 _ (SMap.lookup_mem h1)).2.2.1
      (hl.2 _ (SMap.lookup_mem h2)).2.2.1 (hn.2 _ (SMap.lookup_mem h3)).2.2.1

theorem TimeBucket.Combine_eq_some {x y : TimeBucket} (hn : x.Name = y.Name)
    (ht : x.Time = y.Time) : x.Combine y = some (combineBucketsTotal x y) := by
  unfold TimeBucket.Combine combineBucketsTotal
  rw [if_neg (by simp [hn]), if_neg (by simp [ht])]

theorem combineBucketsTotal_comm {L : Int → String} {N E : String → String}
    {x y : TimeBucket} (hx : BucketWF L N E x) (hy : BucketWF L N E y)
    (ht : x.Time = y.Time) : combineBucketsTotal x y = combineBucketsTotal y x := by
  obtain ⟨hxn, hxt, hxtt, hxm⟩ := hx
  obtain ⟨hyn, hyt, hytt, hym⟩ := hy
  unfold combineBucketsTotal
  simp only [TimeBucket.mk.injEq]
  exact ⟨by rw [hxn, hyn, ht], ht, hxt.trans hyt.symm, hxtt.trans hytt.symm,
    talliesMerge_comm hxm hym⟩

theorem combineBucketsTotal_assoc {N E : String → String} {x y z : TimeBucket}
    (hx : TalliesWF N E x.tallies) (hy : TalliesWF N E y.tallies)
    (hz : TalliesWF N E z.tallies) :
    combineBucketsTotal (combineBucketsTotal x y) z =
      combineBucketsTotal x (combineBucketsTotal y z) := by
  unfold combineBucketsTotal
  simp only [TimeBucket.mk.injEq, true_and]
  exact talliesMerge_assoc hx hy hz

theorem combineBucketsTotal_wf {L : Int → String} {N E : String → String}
    {x y : TimeBucket} (hx : BucketWF L N E x) (hy : BucketWF L N E y) :
    BucketWF L N E (combineBucketsTotal x y) :=
  ⟨hx.1, hx.2.1, hx.2.2.1, talliesMerge_wf hx.2.2.2 hy.2.2.2⟩

theorem TimeSeries.Combine_eq (a b : TimeSeries) :
    TimeSeries.Combine a b =
      Option.bind (List.foldlM seriesStep (seriesMap a) b)
        (fun m1 => some (m1.map Prod.snd)) := rfl

theorem seriesMapGo_wf (L : Int → String) (N E : String → String) :
    ∀ (a : TimeSeries) (m : List (Int × TimeBucket)), MapWF L N E m →
      (∀ bk ∈ a, BucketWF L N E bk) →
      MapWF L N E (a.foldl (fun m bk => SMap.insert bk.Time bk m) m) := by
  intro a
  induction a with
  | nil => intro m hm _; exact hm
  | cons bk rest ih =>
    intro m hm hwf
    rw [List.foldl_cons]
    refine ih _ ⟨SMap.insert_sorted hm.1, ?_⟩
      (fun x hx => hwf x (List.mem_cons_of_mem _ hx))
    intro kv hkv
    rcases SMap.mem_insert hkv with rfl | h
    · exact ⟨rfl, hwf bk (List.mem_cons_self _ _)⟩
    · exact hm.2 _ h

theorem seriesMap_wf (L : Int → String) (N E : String → String) (a : TimeSeries)
    (h : ∀ bk ∈ a, BucketWF L N E bk) : MapWF L N E (seriesMap a) :=
  seriesMapGo_wf L N E a [] ⟨SMap.sorted_nil, fun _ hkv => absurd hkv (List.not_mem_nil _)⟩ h

theorem seriesMapGo_lookup (T : Int) :
    ∀ (a : TimeSeries) (m : List (Int × TimeBucket)),
      List.Pairwise (fun x y => x.Time ≠ y.Time) a →
      SMap.lookup T (a.foldl (fun m bk => SMap.insert bk.Time bk m) m) =
        match a.find? (fun bk => decide (bk.Time = T)) with
        | some bk => some bk
        | none => SMap.lookup T m := by
  intro a
  induction a with
  | nil => intro m _; rfl
  | cons bk rest ih =>
    intro m hp
    obtain ⟨hh, ht⟩ := List.pairwise_cons.mp hp
    rw [List.foldl_cons, ih _ ht]
    by_cases hT : bk.Time = T
    · have hfind : (bk :: rest).find? (fun b => decide (b.Time = T)) = some bk :=
        List.find?_cons_of_pos _ (by simp [hT])
      have hrest : rest.find? (fun b => decide (b.Time = T)) = none :=
        List.find?_eq_none.mpr fun x hx => by
          simp only [decide_eq_true_eq]
          exact fun hc => hh x hx (hT.trans hc.symm)
      rw [hrest, hfind, SMap.lookup_insert, if_pos hT.symm]
    · have hfind : (bk :: rest).find? (fun b => decide (b.Time = T)) =
          rest.find? (fun b => decide (b.Time = T)) :=
        List.find?_cons_of_neg _ (by simpa using hT)
      rw [hfind, SMap.lookup_insert, if_neg (fun hc => hT hc.symm)]

theorem seriesMap_lookup (T : Int) (a : TimeSeries)
    (hd : List.Pairwise (fun x y => x.Time ≠ y.Time) a) :
    SMap.lookup T (seriesMap a) = a.find? (fun bk => decide (bk.Time = T)) := by
  unfold seriesMap
  rw [seriesMapGo_lookup T a [] hd]
  cases a.find? (fun bk => decide (bk.Time = T)) <;> rfl

/-- The second loop of `TimeSeries.Combine`, characterised: on buckets with
pairwise-distinct well-formed times, the fold succeeds and the resulting
map holds, at every time key, the combine of what the two sides hold
there (one-sided keys pass through). -/
theorem seriesFold_char (L : Int → String) (N E : String → String) :
    ∀ (b : List TimeBucket),
      List.Pairwise (fun x y => x.Time ≠ y.Time) b →
      (∀ bk ∈ b, BucketWF L N E bk) →
      ∀ m : List (Int × TimeBucket), MapWF L N E m →
      ∃ mm, List.foldlM seriesStep m b = some mm ∧ MapWF L N E mm ∧
        ∀ T, SMap.lookup T mm =
          match SMap.lookup T m, b.find? (fun bk => decide (bk.Time = T)) with
          | some x, some y => some (combineBucketsTotal x y)
          | some x, none => some x
          | none, some y => some y
          | none, none => none := by
  intro b
  induction b with
  | nil =>
    intro _ _ m hm
    refine ⟨m, rfl, hm, fun T => ?_⟩
    cases SMap.lookup T m <;> rfl
  | cons bk rest ih =>
    intro hp hwf m hm
    obtain ⟨hh, ht⟩ := List.pairwise_cons.mp hp
    have hbkwf : BucketWF L N E bk := hwf bk (List.mem_cons_self _ _)
    have hwfr : ∀ x ∈ rest, BucketWF L N E x :=
      fun x hx => hwf x (List.mem_cons_of_mem _ hx)
    cases hlk : SMap.lookup bk.Time m with
    | none =>
      have hstep : seriesStep m bk = some (SMap.insert bk.Time bk m) := by
        unfold seriesStep
        rw [hlk]
      have hm' : MapWF L N E (SMap.insert bk.Time bk m) := by
        refine ⟨SMap.insert_sorted hm.1, ?_⟩
        intro kv hkv
        rcases SMap.mem_insert hkv with rfl | h
        · exact ⟨rfl, hbkwf⟩
        · exact hm.2 _ h
      obtain ⟨mm, hfold, hmm, hchar⟩ := ih ht hwfr _ hm'
      refine ⟨mm, ?_, hmm, ?_⟩
      · rw [List.foldlM_cons, hstep]
        exact hfold
      · intro T
        rw [hchar T]
        by_cases hT : T = bk.Time
        · have hrest : rest.find? (fun x => decide (x.Time = T)) = none :=
            List.find?_eq_none.mpr fun x hx => by
              simp only [decide_eq_true_eq]
              exact fun hc => hh x hx (hc.trans hT).symm
          have hfind : (bk :: rest).find? (fun x => decide (x.Time = T)) = some bk :=
            List.find?_cons_of_pos _ (by simp [hT])
          rw [SMap.lookup_insert, if_pos hT, hrest, hfind, hT, hlk]
        · have hfind : (bk :: rest).find? (fun x => decide (x.Time = T)) =
              rest.find? (fun x => decide (x.Time = T)) :=
            List.find?_cons_of_neg _ (by simpa using fun hc => hT hc.symm)
          rw [SMap.lookup_insert, if_neg hT, hfind]
    | some existing =>
      have hexm := hm.2 _ (SMap.lookup_mem hlk)
      have hexT : existing.Time = bk.Time := hexm.1
      have hexWF : BucketWF L N E existing := hexm.2
      have hname : existing.Name = bk.Name := by rw [hexWF.1, hbkwf.1, hexT]
      have hcomb : existing.Combine bk = some (combineBucketsTotal existing bk) :=
        TimeBucket.Combine_eq_some hname hexT
      have hstep : seriesStep m bk =
          some (SMap.insert bk.Time (combineBucketsTotal existing bk) m) := by
        unfold seriesStep
        rw [hlk]
        dsimp only
        rw [hcomb]
      have hcwf : BucketWF L N E (combineBucketsTotal existing bk) :=
        combineBucketsTotal_wf hexWF hbkwf
      have hm' : MapWF L N E (SMap.insert bk.Time (combineBucketsTotal existing bk) m) := by
        refine ⟨SMap.insert_sorted hm.1, ?_⟩
        intro kv hkv
        rcases SMap.mem_insert hkv with rfl | h
        · exact ⟨hexT, hcwf⟩
        · exact hm.2 _ h
      obtain ⟨mm, hfold, hmm, hchar⟩ := ih ht hwfr _ hm'
      refine ⟨mm, ?_, hmm, ?_⟩
      · rw [List.foldlM_cons, hstep]
        exact hfold
      · intro T
        rw [hchar T]
        by_cases hT : T = bk.Time
        · have hrest : rest.find? (fun x => decide (x.Time = T)) = none :=
            List.find?_eq_none.mpr fun x hx => by
              simp only [decide_eq_true_eq]
              exact fun hc => hh x hx (hc.trans hT).symm
          have hfind : (bk :: rest).find? (fun x => decide (x.Time = T)) = some bk :=
            List.find?_cons_of_pos _ (by simp [hT])
          rw [SMap.lookup_insert, if_pos hT, hrest, hfind, hT, hlk]
        · have hfind : (bk :: rest).find? (fun x => decide (x.Time = T)) =
              rest.find? (fun x => decide (x.Time = T)) :=
            List.find?_cons_of_neg _ (by simpa using fun hc => hT hc.symm)
          rw [SMap.lookup_insert, if_neg hT, hfind]

theorem mapSnd_sorted_time {L : Int → String} {N E : String → String}
    {m : List (Int × TimeBucket)} (hm : MapWF L N E m) :
    List.Pairwise (fun x y => x.Time < y.Time) (m.map Prod.snd) := by
  rw [List.pairwise_map]
  refine hm.1.imp_of_mem ?_
  intro a b ha hb hab
  have h1 := (hm.2 a ha).1
  have h2 := (hm.2 b hb).1
  rw [h1, h2]
  exact hab

theorem mapSnd_series_wf {L : Int → String} {N E : String → String}
    {m : List (Int × TimeBucket)} (hm : MapWF L N E m) :
    SeriesWF L N E (m.map Prod.snd) := by
  refine ⟨(mapSnd_sorted_time hm).imp (fun h => ne_of_lt h), ?_⟩
  intro x hx
  obtain ⟨kv, hkv, rfl⟩ := List.mem_map.mp hx
  exact (hm.2 kv hkv).2

theorem mapSnd_lookup {L : Int → String} {N E : String → String} :
    ∀ {m : List (Int × TimeBucket)}, MapWF L N E m → ∀ T,
      (m.map Prod.snd).find? (fun bk => decide (bk.Time = T)) = SMap.lookup T m := by
  intro m
  induction m with
  | nil => intro _ T; rfl
  | cons kv rest ih =>
    intro hm T
    obtain ⟨hh, ht⟩ := SMap.sorted_cons.mp hm.1
    have hkey : kv.2.Time = kv.1 := (hm.2 kv (List.mem_cons_self _ _)).1
    have hmr : MapWF L N E rest := ⟨ht, fun x hx => hm.2 x (List.mem_cons_of_mem _ hx)⟩
    obtain ⟨k₂, v₂⟩ := kv
    rw [List.map_cons]
    by_cases hT : T = k₂
    · rw [List.find?_cons_of_pos _ (by simp only [decide_eq_true_eq]; rw [hT]; exact hkey)]
      simp only [SMap.lookup, if_pos hT]
    · rw [List.find?_cons_of_neg _
        (by simp only [decide_eq_true_eq]; exact fun hc => hT (hc.symm.trans hkey))]
      simp only [SMap.lookup, if_neg hT]
      exact ih hmr T

/-- `TimeSeries.Combine` on well-formed series: it succeeds, and the result
is the value list of a well-formed map holding, at every time, the combine
of the buckets the two series hold there. -/
theorem TimeSeries.Combine_char {L : Int → String} {N E : String → String}
    {a b : TimeSeries} (hA : SeriesWF L N E a) (hB : SeriesWF L N E b) :
    ∃ mm, MapWF L N E mm ∧ TimeSeries.Combine a b = some (mm.map Prod.snd) ∧
      ∀ T, SMap.lookup T mm =
        match a.find? (fun bk => decide (bk.Time = T)),
            b.find? (fun bk => decide (bk.Time = T)) with
        | some x, some y => some (combineBucketsTotal x y)
        | some x, none => some x
        | none, some y => some y
        | none, none => none := by
  obtain ⟨mm, hfold, hmm, hchar⟩ :=
    seriesFold_char L N E b hB.1 hB.2 _ (seriesMap_wf L N E a hA.2)
  refine ⟨mm, hmm, ?_, ?_⟩
  · rw [TimeSeries.Combine_eq, hfold]
    rfl
  · intro T
    have h := hchar T
    rw [seriesMap_lookup T a hA.1] at h
    exact h

/-- C7: on well-formed series — pairwise-distinct bucket times, labels
determined by the time, cached display tallies still zero-valued, and
author identities determined by the author key — `TimeSeries.Combine` is a
commutative merge keyed by the exact bucket time and is associative, and
its output is re-sorted strictly ascending by time key.  (Unconditionally
the claim fails: see the counterexample, where cached display fields left
by `Rank` make the merge keep the receiver's values.) -/
theorem C7_combine_comm_assoc (L : Int → String) (N E : String → String)
    (a b c : TimeSeries) (hA : SeriesWF L N E a) (hB : SeriesWF L N E b)
    (hC : SeriesWF L N E c) :
    (∃ s, TimeSeries.Combine a b = some s ∧ TimeSeries.Combine b a = some s ∧
        List.Pairwise (fun x y => x.Time < y.Time) s) ∧
      Option.bind (TimeSeries.Combine a b) (fun x => TimeSeries.Combine x c) =
        Option.bind (TimeSeries.Combine b c) (fun x => TimeSeries.Combine a x) := by
  constructor
  · obtain ⟨m1, hm1, he1, hc1⟩ := TimeSeries.Combine_char hA hB
    obtain ⟨m2, hm2, he2, hc2⟩ := TimeSeries.Combine_char hB hA
    have hmeq : m1 = m2 := by
      refine SMap.ext hm1.1 hm2.1 fun T => ?_
      rw [hc1 T, hc2 T]
      cases hfa : a.find? (fun bk => decide (bk.Time = T)) with
      | none => cases hfb : b.find? (fun bk => decide (bk.Time = T)) <;> rfl
      | some x =>
        cases hfb : b.find? (fun bk => decide (bk.Time = T)) with
        | none => rfl
        | some y =>
          have hxT : x.Time = T := by
            have := List.find?_some hfa
            simpa using this
          have hyT : y.Time = T := by
            have := List.find?_some hfb
            simpa using this
          exact congrArg some (combineBucketsTotal_comm
            (hA.2 x (List.mem_of_find?_eq_some hfa))
            (hB.2 y (List.mem_of_find?_eq_some hfb)) (hxT.trans hyT.symm))
    exact ⟨m1.map Prod.snd, he1, by rw [he2, hmeq], mapSnd_sorted_time hm1⟩
  · obtain ⟨mab, hmab, heab, hcab⟩ := TimeSeries.Combine_char hA hB
    have hABwf : SeriesWF L N E (mab.map Prod.snd) := mapSnd_series_wf hmab
    obtain ⟨mabc, hmabc, heabc, hcabc⟩ := TimeSeries.Combine_char hABwf hC
    obtain ⟨mbc, hmbc, hebc, hcbc⟩ := TimeSeries.Combine_char hB hC
    have hBCwf : SeriesWF L N E (mbc.map Prod.snd) := mapSnd_series_wf hmbc
    obtain ⟨mabc₂, hmabc₂, heabc₂, hcabc₂⟩ := TimeSeries.Combine_char hA hBCwf
    rw [heab, hebc]
    show TimeSeries.Combine (mab.map Prod.snd) c =
      TimeSeries.Combine a (mbc.map Prod.snd)
    rw [heabc, heabc₂]
    have hmeq : mabc = mabc₂ := by
      refine SMap.ext hmabc.1 hmabc₂.1 fun T => ?_
      rw [hcabc T, hcabc₂ T, mapSnd_lookup hmab T, mapSnd_lookup hmbc T,
        hcab T, hcbc T]
      cases hfa : a.find? (fun bk => decide (bk.Time = T)) with
      | none =>
        cases hfb : b.find? (fun bk => decide (bk.Time = T)) <;>
          cases hfc : c.find? (fun bk => decide (bk.Time = T)) <;> rfl
      | some x =>
        cases hfb : b.find? (fun bk => decide (bk.Time = T)) with
        | none => cases hfc : c.find? (fun bk => decide (bk.Time = T)) <;> rfl
        | some y =>
          cases hfc : c.find? (fun bk => decide (bk.Time = T)) with
          | none => rfl
          | some z =>
            exact congrArg some (combineBucketsTotal_assoc
              (hA.2 x (List.mem_of_find?_eq_some hfa)).2.2.2
              (hB.2 y (List.mem_of_find?_eq_some hfb)).2.2.2
              (hC.2 z (List.mem_of_find?_eq_some hfc)).2.2.2)
    rw [hmeq]

theorem wBucketA_wf : SeriesWF wL wN wE [wBucketA] := by
  refine ⟨List.pairwise_singleton _ _, fun x hx => ?_⟩
  rw [List.mem_singleton] at hx
  subst hx
  refine ⟨rfl, rfl, rfl, List.pairwise_singleton _ _, ?_⟩
  rw [show wBucketA.tallies = [("a", wTally1)] from rfl, List.forall_mem_singleton]
  refine ⟨rfl, rfl, List.pairwise_singleton _ _, ?_⟩
  rw [show ("a", wTally1).2.fileset = [("f.txt", true)] from rfl,
    List.forall_mem_singleton]

theorem wBucketB_wf : SeriesWF wL wN wE [wBucketB] := by
  refine ⟨List.pairwise_singleton _ _, fun x hx => ?_⟩
  rw [List.mem_singleton] at hx
  subst hx
  refine ⟨rfl, rfl, rfl, List.pairwise_singleton _ _, ?_⟩
  rw [show wBucketB.tallies = [("a", wTally2)] from rfl, List.forall_mem_singleton]
  refine ⟨rfl, rfl, List.pairwise_singleton _ _, ?_⟩
  rw [show ("a", wTally2).2.fileset = [("g.txt", true)] from rfl,
    List.forall_mem_singleton]

theorem wNil_wf : SeriesWF wL wN wE [] :=
  ⟨List.Pairwise.nil, fun _ hx => absurd hx (List.not_mem_nil _)⟩

theorem C7_witness :
    (∃ s, TimeSeries.Combine [wBucketA] [wBucketB] = some s ∧
        TimeSeries.Combine [wBucketB] [wBucketA] = some s ∧
        List.Pairwise (fun x y => x.Time < y.Time) s) ∧
      Option.bind (TimeSeries.Combine [wBucketA] [wBucketB])
          (fun x => TimeSeries.Combine x []) =
        Option.bind (TimeSeries.Combine [wBucketB] [])
          (fun x => TimeSeries.Combine [wBucketA] x) :=
  C7_combine_comm_assoc wL wN wE [wBucketA] [wBucketB] [] wBucketA_wf wBucketB_wf wNil_wf

namespace SMap

variable {κ : Type} [LinearOrder κ] {α : Type}

theorem mergeFold_nil_left {f : α → α → α} {l : List (κ × α)} (hl : Sorted l) :
    mergeFold f [] l = l := by
  refine ext (mergeFold_sorted sorted_nil) hl fun k => ?_
  rw [lookup_mergeFold f hl]
  cases lookup k l <;> rfl

end SMap

/-- `updateTally`, field by field. -/
theorem updateTally_fields (c : Commit) (t : Tally) :
    updateTally c t = Tally.mk t.name t.email (t.numTallied + 1)
      (t.added + sumAdded c) (t.removed + sumRemoved c)
      (insertPaths c.FileDiffs t.fileset) := by
  have main : ∀ (ds : List FileDiff) (t₂ : Tally),
      ds.foldl (fun t d =>
          Tally.mk t.name t.email t.numTallied (t.added + d.LinesAdded)
            (t.removed + d.LinesRemoved) (SMap.insert d.Path true t.fileset)) t₂ =
        Tally.mk t₂.name t₂.email t₂.numTallied
          (t₂.added + (ds.map (fun d => d.LinesAdded)).sum)
          (t₂.removed + (ds.map (fun d => d.LinesRemoved)).sum)
          (insertPaths ds t₂.fileset) := by
    intro ds
    induction ds with
    | nil =>
      intro t₂
      obtain ⟨n, e, nt, a, r, fs⟩ := t₂
      simp [insertPaths]
    | cons d ds ih =>
      intro t₂
      rw [List.foldl_cons, ih]
      simp only [List.map_cons, List.sum_cons, Tally.mk.injEq, true_and]
      refine ⟨by ring, by ring, rfl⟩
  unfold updateTally sumAdded sumRemoved
  rw [main]

theorem insertPaths_sorted {ds : List FileDiff} :
    ∀ {fs : List (String × Bool)}, SMap.Sorted fs → SMap.Sorted (insertPaths ds fs) := by
  induction ds with
  | nil => intro fs h; exact h
  | cons d ds ih =>
    intro fs h
    exact ih (SMap.insert_sorted h)

theorem insertPaths_wf {ds : List FileDiff} :
    ∀ {fs : List (String × Bool)}, FilesetWF fs → FilesetWF (insertPaths ds fs) := by
  induction ds with
  | nil => intro fs h; exact h
  | cons d ds ih =>
    intro fs h
    refine ih ⟨SMap.insert_sorted h.1, ?_⟩
    intro p hp
    rcases SMap.mem_insert hp with rfl | hp
    · rfl
    · exact h.2 p hp

theorem lookup_insertPaths (p : String) : ∀ (ds : List FileDiff)
    (fs : List (String × Bool)),
    SMap.lookup p (insertPaths ds fs) =
      if ∃ d ∈ ds, d.Path = p then some true else SMap.lookup p fs := by
  intro ds
  induction ds with
  | nil =>
    intro fs
    rw [if_neg (by simp)]
    rfl
  | cons d ds ih =>
    intro fs
    rw [show insertPaths (d :: ds) fs = insertPaths ds (SMap.insert d.Path true fs)
      from rfl, ih]
    by_cases hd : ∃ d₂ ∈ ds, d₂.Path = p
    · obtain ⟨d₂, hmem, hpath⟩ := hd
      rw [if_pos ⟨d₂, hmem, hpath⟩,
        if_pos ⟨d₂, List.mem_cons_of_mem _ hmem, hpath⟩]
    · rw [if_neg hd, SMap.lookup_insert]
      by_cases hp : p = d.Path
      · rw [if_pos hp, if_pos ⟨d, List.mem_cons_self _ _, hp.symm⟩]
      · rw [if_neg hp, if_neg ?_]
        rintro ⟨d₂, hmem, hpath⟩
        rcases List.mem_cons.mp hmem with rfl | hmem
        · exact hp hpath.symm
        · exact hd ⟨d₂, hmem, hpath⟩

theorem fileset_lookup_merge {fa fb : List (String × Bool)} (ha : FilesetWF fa)
    (hb : FilesetWF fb) (p : String) :
    SMap.lookup p (SMap.mergeFold (fun _ v => v) fa fb) =
      if SMap.lookup p fa = none ∧ SMap.lookup p fb = none then none
      else some true := by
  rw [SMap.lookup_mergeFold _ hb.1]
  cases h1 : SMap.lookup p fa with
  | none =>
    cases h2 : SMap.lookup p fb with
    | none => rw [if_pos ⟨rfl, rfl⟩]
    | some b =>
      have hbt : b = true := hb.2 _ (SMap.lookup_mem h2)
      rw [hbt, if_neg (by simp)]
  | some a =>
    cases h2 : SMap.lookup p fb with
    | none =>
      have hat : a = true := ha.2 _ (SMap.lookup_mem h1)
      rw [hat, if_neg (by simp)]
    | some b =>
      have hbt : b = true := hb.2 _ (SMap.lookup_mem h2)
      rw [hbt, if_neg (by simp)]

theorem insertPaths_merge_left {ds : List FileDiff} {fa fb : List (String × Bool)}
    (ha : FilesetWF fa) (hb : FilesetWF fb) :
    SMap.mergeFold (fun _ v => v) (insertPaths ds fa) fb =
      insertPaths ds (SMap.mergeFold (fun _ v => v) fa fb) := by
  refine SMap.ext (SMap.mergeFold_sorted (insertPaths_wf ha).1)
    (insertPaths_sorted (SMap.mergeFold_sorted ha.1)) fun p => ?_
  rw [fileset_lookup_merge (insertPaths_wf ha) hb p, lookup_insertPaths p ds,
    lookup_insertPaths p ds, fileset_lookup_merge ha hb p]
  by_cases hd : ∃ d ∈ ds, d.Path = p <;> simp [hd]

theorem insertPaths_merge_right {ds : List FileDiff} {fa fb : List (String × Bool)}
    (ha : FilesetWF fa) (hb : FilesetWF fb) :
    SMap.mergeFold (fun _ v => v) fa (insertPaths ds fb) =
      insertPaths ds (SMap.mergeFold (fun _ v => v) fa fb) := by
  refine SMap.ext (SMap.mergeFold_sorted ha.1)
    (insertPaths_sorted (SMap.mergeFold_sorted ha.1)) fun p => ?_
  rw [fileset_lookup_merge ha (insertPaths_wf hb) p, lookup_insertPaths p ds,
    lookup_insertPaths p ds, fileset_lookup_merge ha hb p]
  by_cases hd : ∃ d ∈ ds, d.Path = p <;> simp [hd]

theorem freshTally_wf {N E : String → String} {k : String} {c : Commit}
    (hcn : c.AuthorName = N k) (hce : c.AuthorEmail = E k) :
    TallyWF N E k (freshTally c) :=
  ⟨hcn, hce, SMap.sorted_nil, fun _ hp => absurd hp (List.not_mem_nil _)⟩

theorem updateTally_wf {N E : String → String} {k : String} {c : Commit} {t : Tally}
    (ht : TallyWF N E k t) : TallyWF N E k (updateTally c t) := by
  rw [updateTally_fields]
  exact ⟨ht.1, ht.2.1, insertPaths_wf ht.2.2⟩

/-- Tallying a commit into the left operand commutes with `Tally.Combine`. -/
theorem combine_update_left {c : Commit} {a b : Tally}
    (ha : FilesetWF a.fileset) (hb : FilesetWF b.fileset) :
    (updateTally c a).Combine b = updateTally c (a.Combine b) := by
  rw [updateTally_fields, updateTally_fields]
  unfold Tally.Combine
  simp only [Tally.mk.injEq, true_and]
  exact ⟨by ring, by ring, by ring, insertPaths_merge_left ha hb⟩

/-- Tallying a commit into the right operand commutes with `Tally.Combine`. -/
theorem combine_update_right {c : Commit} {a b : Tally}
    (ha : FilesetWF a.fileset) (hb : FilesetWF b.fileset) :
    a.Combine (updateTally c b) = updateTally c (a.Combine b) := by
  rw [updateTally_fields, updateTally_fields]
  unfold Tally.Combine
  simp only [Tally.mk.injEq, true_and]
  exact ⟨by ring, by ring, by ring, insertPaths_merge_right ha hb⟩

/-- Combining with a commit's fresh tally on the right is just tallying the
commit in (needs the identity fields determined by the key). -/
theorem combine_fresh_right {N E : String → String} {k : String} {c : Commit}
    {a : Tally} (ha : TallyWF N E k a) (hcn : c.AuthorName = N k)
    (hce : c.AuthorEmail = E k) :
    a.Combine (updateTally c (freshTally c)) = updateTally c a := by
  rw [updateTally_fields, updateTally_fields]
  unfold Tally.Combine freshTally
  simp only [Tally.mk.injEq]
  refine ⟨?_, ?_, by ring, by ring, by ring, ?_⟩
  · rw [ha.1, hcn]
    split_ifs <;> rfl
  · rw [ha.2.1, hce]
    split_ifs <;> rfl
  · rw [insertPaths_merge_right ha.2.2
      ⟨SMap.sorted_nil, fun _ hp => absurd hp (List.not_mem_nil _)⟩]
    rfl

/-- Combining with a commit's fresh tally on the left is just tallying the
commit in. -/
theorem combine_fresh_left {N E : String → String} {k : String} {c : Commit}
    {b : Tally} (hb : TallyWF N E k b) (hcn : c.AuthorName = N k)
    (hce : c.AuthorEmail = E k) :
    (updateTally c (freshTally c)).Combine b = updateTally c b := by
  rw [updateTally_fields, updateTally_fields]
  unfold Tally.Combine freshTally
  simp only [Tally.mk.injEq]
  refine ⟨?_, ?_, by ring, by ring, by ring, ?_⟩
  · rw [hb.1, hcn]
    split_ifs <;> rfl
  · rw [hb.2.1, hce]
    split_ifs <;> rfl
  · rw [insertPaths_merge_left
      ⟨SMap.sorted_nil, fun _ hp => absurd hp (List.not_mem_nil _)⟩ hb.2.2,
      SMap.mergeFold_nil_left hb.2.2.1]

theorem tallyCommitInto_eq (opts : TallyOpts) (c : Commit)
    (m : List (String × Tally)) :
    tallyCommitInto opts c m = SMap.insert (opts.Key c)
      (updateTally c (match SMap.lookup (opts.Key c) m with
        | some t => t
        | none => freshTally c)) m := rfl

theorem tallyCommitInto_wf {N E : String → String} {opts : TallyOpts} {c : Commit}
    {m : List (String × Tally)} (hm : TalliesWF N E m)
    (hcn : c.AuthorName = N (opts.Key c)) (hce : c.AuthorEmail = E (opts.Key c)) :
    TalliesWF N E (tallyCommitInto opts c m) := by
  rw [tallyCommitInto_eq]
  refine ⟨SMap.insert_sorted hm.1, ?_⟩
  intro kv hkv
  rcases SMap.mem_insert hkv with rfl | h
  · cases hl : SMap.lookup (opts.Key c) m with
    | some t => exact updateTally_wf (hm.2 _ (SMap.lookup_mem hl))
    | none => exact updateTally_wf (freshTally_wf hcn hce)
  · exact hm.2 _ h

/-- Tallying a commit into the first map commutes with folding the second
map in. -/
theorem merge_tallyInto_left {N E : String → String} {opts : TallyOpts}
    {c : Commit} {m₁ m₂ : List (String × Tally)} (h₁ : TalliesWF N E m₁)
    (h₂ : TalliesWF N E m₂) (hcn : c.AuthorName = N (opts.Key c))
    (hce : c.AuthorEmail = E (opts.Key c)) :
    SMap.mergeFold Tally.Combine (tallyCommitInto opts c m₁) m₂ =
      tallyCommitInto opts c (SMap.mergeFold Tally.Combine m₁ m₂) := by
  rw [tallyCommitInto_eq, tallyCommitInto_eq,
    SMap.lookup_mergeFold Tally.Combine h₂.1 (opts.Key c)]
  refine SMap.ext (SMap.mergeFold_sorted (SMap.insert_sorted h₁.1))
    (SMap.insert_sorted (SMap.mergeFold_sorted h₁.1)) fun q => ?_
  rw [SMap.lookup_mergeFold _ h₂.1 q, SMap.lookup_insert, SMap.lookup_insert,
    SMap.lookup_mergeFold _ h₂.1 q]
  by_cases hq : q = opts.Key c
  · rw [if_pos hq, if_pos hq, hq]
    cases ha : SMap.lookup (opts.Key c) m₁ with
    | some a =>
      cases hb : SMap.lookup (opts.Key c) m₂ with
      | some b =>
        exact congrArg some (combine_update_left
          (h₁.2 _ (SMap.lookup_mem ha)).2.2 (h₂.2 _ (SMap.lookup_mem hb)).2.2)
      | none => rfl
    | none =>
      cases hb : SMap.lookup (opts.Key c) m₂ with
      | some b =>
        exact congrArg some (combine_fresh_left
          (h₂.2 _ (SMap.lookup_mem hb)) hcn hce)
      | none => rfl
  · rw [if_neg hq, if_neg hq]

/-- Tallying a commit into the second map commutes with folding it into the
first. -/
theorem merge_tallyInto_right {N E : String → String} {opts : TallyOpts}
    {c : Commit} {m₁ m₂ : List (String × Tally)} (h₁ : TalliesWF N E m₁)
    (h₂ : TalliesWF N E m₂) (hcn : c.AuthorName = N (opts.Key c))
    (hce : c.AuthorEmail = E (opts.Key c)) :
    SMap.mergeFold Tally.Combine m₁ (tallyCommitInto opts c m₂) =
      tallyCommitInto opts c (SMap.mergeFold Tally.Combine m₁ m₂) := by
  rw [tallyCommitInto_eq, tallyCommitInto_eq,
    SMap.lookup_mergeFold Tally.Combine h₂.1 (opts.Key c)]
  refine SMap.ext (SMap.mergeFold_sorted h₁.1)
    (SMap.insert_sorted (SMap.mergeFold_sorted h₁.1)) fun q => ?_
  rw [SMap.lookup_mergeFold _ (SMap.insert_sorted h₂.1) q, SMap.lookup_insert,
    SMap.lookup_insert, SMap.lookup_mergeFold _ h₂.1 q]
  by_cases hq : q = opts.Key c
  · rw [if_pos hq, if_pos hq, hq]
    cases ha : SMap.lookup (opts.Key c) m₁ with
    | some a =>
      cases hb : SMap.lookup (opts.Key c) m₂ with
      | some b =>
        exact congrArg some (combine_update_right
          (h₁.2 _ (SMap.lookup_mem ha)).2.2 (h₂.2 _ (SMap.lookup_mem hb)).2.2)
      | none =>
        exact congrArg some (combine_fresh_right
          (h₁.2 _ (SMap.lookup_mem ha)) hcn hce)
    | none =>
      cases hb : SMap.lookup (opts.Key c) m₂ with
      | some b => rfl
      | none => rfl
  · rw [if_neg hq, if_neg hq]

theorem Interleave.sublist_fst {α : Type} {us vs cs : List α}
    (h : Interleave us vs cs) : us.Sublist cs := by
  induction h with
  | nil => exact List.nil_sublist _
  | left _ ih => exact ih.cons₂ _
  | right _ ih => exact ih.cons _

theorem Interleave.sublist_snd {α : Type} {us vs cs : List α}
    (h : Interleave us vs cs) : vs.Sublist cs := by
  induction h with
  | nil => exact List.nil_sublist _
  | left _ ih => exact ih.cons _
  | right _ ih => exact ih.cons₂ _

theorem Interleave.filter {α : Type} (p : α → Bool) {us vs cs : List α}
    (h : Interleave us vs cs) :
    Interleave (us.filter p) (vs.filter p) (cs.filter p) := by
  induction h with
  | nil => exact .nil
  | @left c us vs cs _ ih =>
    rw [List.filter_cons, List.filter_cons]
    by_cases hp : p c = true
    · rw [if_pos hp, if_pos hp]
      exact .left ih
    · rw [if_neg hp, if_neg hp]
      exact ih
  | @right c us vs cs _ ih =>
    rw [List.filter_cons, List.filter_cons]
    by_cases hp : p c = true
    · rw [if_pos hp, if_pos hp]
      exact .right ih
    · rw [if_neg hp, if_neg hp]
      exact ih

theorem nil_talliesWF {N E : String → String} : TalliesWF N E [] :=
  ⟨SMap.sorted_nil, fun _ hkv => absurd hkv (List.not_mem_nil _)⟩

theorem foldl_tallyInto_wf {N E : String → String} {opts : TallyOpts} :
    ∀ {ws : List Commit} {m : List (String × Tally)}, TalliesWF N E m →
      (∀ c ∈ ws, c.AuthorName = N (opts.Key c) ∧ c.AuthorEmail = E (opts.Key c)) →
      TalliesWF N E (List.foldl (fun m c => tallyCommitInto opts c m) m ws) := by
  intro ws
  induction ws with
  | nil => intro m hm _; exact hm
  | cons c ws ih =>
    intro m hm hk
    rw [List.foldl_cons]
    exact ih (tallyCommitInto_wf hm (hk c (List.mem_cons_self _ _)).1
      (hk c (List.mem_cons_self _ _)).2)
      (fun c₂ h => hk c₂ (List.mem_cons_of_mem _ h))

/-- Tallying an interleaved commit list into a merged map splits into
tallying each part into its own map and merging. -/
theorem foldTallies_interleave {N E : String → String} {opts : TallyOpts} :
    ∀ {us vs cs : List Commit}, Interleave us vs cs →
      (∀ c ∈ cs, c.AuthorName = N (opts.Key c) ∧ c.AuthorEmail = E (opts.Key c)) →
      ∀ m₁ m₂ : List (String × Tally), TalliesWF N E m₁ → TalliesWF N E m₂ →
      List.foldl (fun m c => tallyCommitInto opts c m)
          (SMap.mergeFold Tally.Combine m₁ m₂) cs =
        SMap.mergeFold Tally.Combine
          (List.foldl (fun m c => tallyCommitInto opts c m) m₁ us)
          (List.foldl (fun m c => tallyCommitInto opts c m) m₂ vs) := by
  intro us vs cs h
  induction h with
  | nil => intro _ m₁ m₂ _ _; rfl
  | @left c us vs cs _ ih =>
    intro hkey m₁ m₂ h₁ h₂
    have hc := hkey c (List.mem_cons_self _ _)
    rw [List.foldl_cons, List.foldl_cons, ← merge_tallyInto_left h₁ h₂ hc.1 hc.2]
    exact ih (fun c₂ hc₂ => hkey c₂ (List.mem_cons_of_mem _ hc₂)) _ m₂
      (tallyCommitInto_wf h₁ hc.1 hc.2) h₂
  | @right c us vs cs _ ih =>
    intro hkey m₁ m₂ h₁ h₂
    have hc := hkey c (List.mem_cons_self _ _)
    rw [List.foldl_cons, List.foldl_cons, ← merge_tallyInto_right h₁ h₂ hc.1 hc.2]
    exact ih (fun c₂ hc₂ => hkey c₂ (List.mem_cons_of_mem _ hc₂)) m₁ _
      h₁ (tallyCommitInto_wf h₂ hc.1 hc.2)

theorem foldTallies_merge {N E : String → String} {opts : TallyOpts}
    {us vs cs : List Commit} (h : Interleave us vs cs)
    (hkey : ∀ c ∈ cs, c.AuthorName = N (opts.Key c) ∧
      c.AuthorEmail = E (opts.Key c)) :
    List.foldl (fun m c => tallyCommitInto opts c m) [] cs =
      SMap.mergeFold Tally.Combine
        (List.foldl (fun m c => tallyCommitInto opts c m) [] us)
        (List.foldl (fun m c => tallyCommitInto opts c m) [] vs) :=
  foldTallies_interleave h hkey [] [] nil_talliesWF nil_talliesWF

theorem bucketFold_eq (opts : TallyOpts) (res : Resolution) (cs : List Commit)
    (bk : TimeBucket) :
    bucketFold opts res cs bk =
      { bk with
          tallies := List.foldl (fun m c => tallyCommitInto opts c m) bk.tallies
            (cs.filter (fun c => decide (res.apply c.Date = bk.Time))) } := rfl

/-- Per bucket, tallying an interleaved stream is the bucket combine of
tallying the parts. -/
theorem bucketFold_merge {N E : String → String} {opts : TallyOpts}
    {res : Resolution} {us vs cs : List Commit} (h : Interleave us vs cs)
    (hkey : ∀ c ∈ cs, c.AuthorName = N (opts.Key c) ∧
      c.AuthorEmail = E (opts.Key c))
    {bk : TimeBucket} (hbk : bk.tallies = []) :
    combineBucketsTotal (bucketFold opts res us bk) (bucketFold opts res vs bk) =
      bucketFold opts res cs bk := by
  rw [bucketFold_eq, bucketFold_eq, bucketFold_eq, hbk]
  unfold combineBucketsTotal
  simp only [TimeBucket.mk.injEq, true_and]
  exact (foldTallies_merge
    (h.filter (fun c => decide (res.apply c.Date = bk.Time)))
    (fun c hc => hkey c (List.mem_of_mem_filter hc))).symm

theorem keyPair_lookup : ∀ (s : TimeSeries) (T : Int),
    SMap.lookup T (s.map (fun b => (b.Time, b))) =
      s.find? (fun b => decide (b.Time = T)) := by
  intro s
  induction s with
  | nil => intro T; rfl
  | cons b rest ih =>
    intro T
    rw [List.map_cons]
    by_cases h : b.Time = T
    · rw [List.find?_cons_of_pos _ (by simp [h])]
      simp only [SMap.lookup]
      rw [if_pos h.symm]
    · rw [List.find?_cons_of_neg _ (by simpa using h)]
      simp only [SMap.lookup]
      rw [if_neg (fun hc => h hc.symm)]
      exact ih T

theorem find?_time_map (f : TimeBucket → TimeBucket)
    (hf : ∀ b, (f b).Time = b.Time) (T : Int) :
    ∀ l : List TimeBucket,
      (l.map f).find? (fun b => decide (b.Time = T)) =
        (l.find? (fun b => decide (b.Time = T))).map f := by
  intro l
  induction l with
  | nil => rfl
  | cons b rest ih =>
    rw [List.map_cons]
    by_cases h : b.Time = T
    · rw [List.find?_cons_of_pos _ (by simp [hf, h]),
        List.find?_cons_of_pos _ (by simp [h])]
      rfl
    · rw [List.find?_cons_of_neg _ (by simp only [decide_eq_true_eq, hf]; exact h),
        List.find?_cons_of_neg _ (by simpa using h)]
      exact ih

theorem tallyAllRes_wf {N E : String → String} {opts : TallyOpts}
    {res : Resolution} {ws : List Commit}
    (hkey : ∀ c ∈ ws, c.AuthorName = N (opts.Key c) ∧
      c.AuthorEmail = E (opts.Key c))
    {B : List TimeBucket} (hpw : List.Pairwise (fun b b₂ => b.Time < b₂.Time) B)
    (hmem : ∀ b ∈ B, b = newBucket (res.label b.Time) b.Time) :
    SeriesWF res.label N E (tallyAllRes opts res ws B) := by
  constructor
  · unfold tallyAllRes
    rw [List.pairwise_map]
    exact hpw.imp (fun h => ne_of_lt h)
  · intro b hb
    obtain ⟨bk, hbk, rfl⟩ := List.mem_map.mp hb
    have h0 := hmem bk hbk
    have hbt : bk.tallies = [] := (congrArg TimeBucket.tallies h0).trans rfl
    refine ⟨(congrArg TimeBucket.Name h0).trans rfl,
      (congrArg TimeBucket.Tally h0).trans rfl,
      (congrArg TimeBucket.TotalTally h0).trans rfl, ?_⟩
    rw [bucketFold_eq, hbt]
    exact foldl_tallyInto_wf nil_talliesWF
      (fun c hc => hkey c (List.mem_of_mem_filter hc))

/-- The series-combine of the part runs over the same bucket walk is the
run of the interleaved stream. -/
theorem tallyAllRes_combine {NN EE : String → String} {opts : TallyOpts}
    {res : Resolution} {s idx : Int → Int} (En : ResEnum res s idx)
    (endT t0 : Int) (hfix : res.apply t0 = t0)
    {us vs cs : List Commit} (h : Interleave us vs cs)
    (hkey : ∀ c ∈ cs, c.AuthorName = NN (opts.Key c) ∧
      c.AuthorEmail = EE (opts.Key c)) :
    TimeSeries.Combine (tallyAllRes opts res us (buildBuckets res endT t0))
        (tallyAllRes opts res vs (buildBuckets res endT t0)) =
      some (tallyAllRes opts res cs (buildBuckets res endT t0)) := by
  have hBpw : List.Pairwise (fun b b₂ => b.Time < b₂.Time)
      (buildBuckets res endT t0) := buildBuckets_pairwise En endT t0 hfix
  have hBmem : ∀ b ∈ buildBuckets res endT t0,
      b = newBucket (res.label b.Time) b.Time := by
    intro b hb
    exact (buildBuckets_mem En endT (endT - t0).toNat t0 (by omega) hfix b hb).1
  have hkx : ∀ c ∈ us, c.AuthorName = NN (opts.Key c) ∧
      c.AuthorEmail = EE (opts.Key c) :=
    fun c hc => hkey c (h.sublist_fst.subset hc)
  have hky : ∀ c ∈ vs, c.AuthorName = NN (opts.Key c) ∧
      c.AuthorEmail = EE (opts.Key c) :=
    fun c hc => hkey c (h.sublist_snd.subset hc)
  obtain ⟨mm, hmm, heq, hchar⟩ := TimeSeries.Combine_char
    (tallyAllRes_wf hkx hBpw hBmem) (tallyAllRes_wf hky hBpw hBmem)
  rw [heq]
  have hDpw : List.Pairwise (fun b b₂ => b.Time < b₂.Time)
      (tallyAllRes opts res cs (buildBuckets res endT t0)) := by
    unfold tallyAllRes
    rw [List.pairwise_map]
    exact hBpw.imp (fun hh => hh)
  have hDM_sorted : SMap.Sorted
      ((tallyAllRes opts res cs (buildBuckets res endT t0)).map
        (fun b => (b.Time, b))) := by
    unfold SMap.Sorted
    rw [List.pairwise_map]
    exact hDpw.imp (fun hh => hh)
  have hmmDM : mm = (tallyAllRes opts res cs (buildBuckets res endT t0)).map
      (fun b => (b.Time, b)) := by
    refine SMap.ext hmm.1 hDM_sorted fun T => ?_
    rw [hchar T, keyPair_lookup _ T]
    unfold tallyAllRes
    rw [find?_time_map (bucketFold opts res us) (fun b => rfl) T,
      find?_time_map (bucketFold opts res vs) (fun b => rfl) T,
      find?_time_map (bucketFold opts res cs) (fun b => rfl) T]
    cases hfB : (buildBuckets res endT t0).find? (fun b => decide (b.Time = T)) with
    | none => rfl
    | some bk =>
      have hbk0 : bk.tallies = [] :=
        (congrArg TimeBucket.tallies
          (hBmem bk (List.mem_of_find?_eq_some hfB))).trans rfl
      exact congrArg some (bucketFold_merge h hkey hbk0)
  rw [hmmDM, List.map_map,
    show (Prod.snd ∘ fun b : TimeBucket => (b.Time, b)) = id from rfl,
    List.map_id]

/-- C2 corrected: partition-merge equivalence for the tail streams behind a
shared seed commit.  The seed is pulled only to fix the resolution and the
bucket walk (and, by the C1 slip, is never tallied), so both partial runs
must see it; behind it, tallying any interleaving of two ordered in-range
parts and combining the two series equals tallying the interleaved stream
directly. -/
theorem C2_partition_tails (opts : TallyOpts) (endT : Int)
    (N E : String → String) (c₀ : Commit) (xs ys zs : List Commit)
    (hmode : opts.Mode ≠ TallyMode.LastModifiedMode)
    (hint : Interleave xs ys zs)
    (hkey : ∀ c ∈ zs, c.AuthorName = N (opts.Key c) ∧
      c.AuthorEmail = E (opts.Key c))
    (hsorted : List.Pairwise (fun c c₂ => c.Date ≤ c₂.Date) (c₀ :: zs))
    (hend : ∀ c ∈ c₀ :: zs, c.Date < endT) :
    ∃ s1 s2 s,
      TallyCommitsByDate (.ok c₀ :: xs.map .ok) opts endT = some (s1, none) ∧
      TallyCommitsByDate (.ok c₀ :: ys.map .ok) opts endT = some (s2, none) ∧
      TimeSeries.Combine s1 s2 = some s ∧
      TallyCommitsByDate (.ok c₀ :: zs.map .ok) opts endT = some (s, none) := by
  have hsubx : (c₀ :: xs).Sublist (c₀ :: zs) := hint.sublist_fst.cons₂ c₀
  have hsuby : (c₀ :: ys).Sublist (c₀ :: zs) := hint.sublist_snd.cons₂ c₀
  have hx := TallyCommitsByDate_char opts endT c₀ xs [] hmode (Or.inl rfl)
    (hsorted.sublist hsubx) (fun c hc => hend c (hsubx.subset hc))
  have hy := TallyCommitsByDate_char opts endT c₀ ys [] hmode (Or.inl rfl)
    (hsorted.sublist hsuby) (fun c hc => hend c (hsuby.subset hc))
  have hz := TallyCommitsByDate_char opts endT c₀ zs [] hmode (Or.inl rfl)
    hsorted hend
  rw [List.append_nil] at hx hy hz
  obtain ⟨s, idx, En⟩ := calcResolution_enum c₀.Date endT
  exact ⟨_, _, _, hx, hy,
    tallyAllRes_combine En endT ((calcResolution c₀.Date endT).apply c₀.Date)
      (En.apply_apply c₀.Date) hint hkey, hz⟩

/-- C2 fails on the code as stated: splitting `{2024-01-05 Alice,
2024-01-06 Bob}` into its two singletons, tallying each with the same end
2024-01-08 and combining, loses Bob's commit entirely (each run drops its
first pull), while the direct run tallies Bob — so the combined series and
the direct series differ. -/
theorem C2_counterexample :
    ¬ ((TallyCommitsByDate [.ok sampleCommitA, .ok c2CommitB] sampleOpts
          (goDate 2024 1 8)).map Prod.fst =
        Option.bind (TallyCommitsByDate [.ok sampleCommitA] sampleOpts
            (goDate 2024 1 8))
          (fun r1 => Option.bind (TallyCommitsByDate [.ok c2CommitB] sampleOpts
              (goDate 2024 1 8))
            (fun r2 => TimeSeries.Combine r1.1 r2.1))) := by
  decide

theorem C2_witness :
    ∃ s1 s2 s,
      TallyCommitsByDate (.ok sampleCommitA :: [sampleCommitB].map .ok)
          sampleOpts (goDate 2024 2 10) = some (s1, none) ∧
      TallyCommitsByDate (.ok sampleCommitA :: [sampleCommitC].map .ok)
          sampleOpts (goDate 2024 2 10) = some (s2, none) ∧
      TimeSeries.Combine s1 s2 = some s ∧
      TallyCommitsByDate (.ok sampleCommitA ::
          [sampleCommitB, sampleCommitC].map .ok)
          sampleOpts (goDate 2024 2 10) = some (s, none) :=
  C2_partition_tails sampleOpts (goDate 2024 2 10) wKeyName (fun k => k)
    sampleCommitA [sampleCommitB] [sampleCommitC] [sampleCommitB, sampleCommitC]
    (by decide) (Interleave.left (Interleave.right Interleave.nil))
    (by decide) (by decide) (by decide)

end GitWho
